import Mathlib

/-!
Verification development for the `astro-loader-glob-frontmatter` loader.

JavaScript plain objects are modelled as insertion-ordered association
lists with string keys (`Fields`), and JSON-like values as the inductive
type `JVal`.  `Object.keys` iteration order is the list order; property
assignment (`result[key] = v`) updates an existing key in place or
appends a fresh key at the end, which `setKey` mirrors.
-/

namespace GlobFM

inductive JVal : Type where
  | null : JVal
  | bool : Bool → JVal
  | num : Int → JVal
  | str : String → JVal
  | arr : List JVal → JVal
  | obj : List (String × JVal) → JVal

abbrev Fields := List (String × JVal)

/-- First-match association lookup, mirroring JS property access. -/
def lookupA {α : Type} : List (String × α) → String → Option α
  | [], _ => none
  | (k, v) :: rest, q => if k = q then some v else lookupA rest q

/-- Property assignment on an insertion-ordered object: update the key in
place when present, append at the end otherwise. -/
def setKey {α : Type} : List (String × α) → String → α → List (String × α)
  | [], k, v => [(k, v)]
  | (k0, v0) :: rest, k, v =>
      if k0 = k then (k0, v) :: rest else (k0, v0) :: setKey rest k v

/-- Key list of an object, in iteration order. -/
def keysOf {α : Type} (l : List (String × α)) : List String :=
  l.map Prod.fst

/-- The two prototype-pollution sentinel key names blocked by the merge. -/
def blockedKey (k : String) : Bool :=
  k = "__proto__" || k = "constructor"

/-- Top-level keys are pairwise distinct (JS objects cannot hold
duplicate keys). -/
def KeysNodup {α : Type} (l : List (String × α)) : Prop :=
  (l.map Prod.fst).Nodup

instance {α : Type} (l : List (String × α)) : Decidable (KeysNodup l) := by
  unfold KeysNodup; infer_instance

/-- Embedding of `deepMerge` from `src/merge.ts`.  The first argument is
the accumulated result (initialised with a copy of `target` by the JS
spread); the second is the remaining `source` entries in key order.
Blocked keys of the source are skipped; when both the current result
value and the source value are plain records they are merged
recursively; otherwise the source value replaces wholesale. -/
def deepMerge : Fields → Fields → Fields
  | result, [] => result
  | result, (k, sVal) :: rest =>
    if blockedKey k then deepMerge result rest
    else
      match lookupA result k, sVal with
      | some (JVal.obj t), JVal.obj s =>
          deepMerge (setKey result k (JVal.obj (deepMerge t s))) rest
      | _, _ => deepMerge (setKey result k sVal) rest
termination_by _ source => sizeOf source
decreasing_by
  all_goals simp_wf <;> omega

/-- Both the base slot and the overlay value are plain records, i.e. the
case in which `deepMerge` recurses instead of replacing wholesale. -/
def bothRecords (o : Option JVal) (v : JVal) : Prop :=
  (∃ t, o = some (JVal.obj t)) ∧ ∃ s, v = JVal.obj s

mutual

/-- A JSON-like value is well formed when every record inside it has
pairwise-distinct keys, as JS objects always do. -/
def wfVal : JVal → Bool
  | JVal.obj fs => wfFields fs
  | _ => true

/-- A record is well formed when its keys are pairwise distinct and all
its values are well formed. -/
def wfFields : Fields → Bool
  | [] => true
  | (k, v) :: rest =>
      !((keysOf rest).contains k) && wfVal v && wfFields rest

end

/-- The final path segment of a key, for Node's `path.extname`. -/
def basenameL (l : List Char) : List Char :=
  (l.reverse.takeWhile (fun c => c ≠ '/')).reverse

/-- Node's `path.extname` on the characters of a key: the suffix from the
last dot of the final segment, empty when there is no dot, when the only
dot is the leading character of the segment (dotfile), or when the
segment is exactly two dots. -/
def extnameL (l : List Char) : List Char :=
  let b := basenameL l
  if b = ['.', '.'] then []
  else
    let after := b.reverse.takeWhile (fun c => c ≠ '.')
    if after.length = b.length then []
    else if after.length + 1 = b.length then []
    else '.' :: after.reverse

def extname (s : String) : String :=
  String.mk (extnameL s.data)

/-- Embedding of `isContentFile` from `src/frontmatter-map.ts`: the key's
extension is one of the recognized content extensions. -/
def isContentFile (k : String) : Bool :=
  extname k = ".md" || extname k = ".mdx" || extname k = ".mdoc"

/-- The template `prefix ? prefix + "/" + key : key` used by both the
flattener and the per-directory discovery (the empty string is falsy). -/
def joinKey (pfx k : String) : String :=
  if pfx = "" then k else pfx ++ "/" ++ k

/-- A path-to-record mapping, modelling the JS `Map` in insertion order;
`Map.set` updates in place or appends, which is again `setKey`. -/
abbrev FMap := List (String × Fields)

/-- Embedding of `flattenToMap` from `src/frontmatter-map.ts`, with the
output map threaded as an accumulator.  Non-record values are skipped;
a record-valued key whose extension is recognized becomes a terminal
entry; any other record-valued key is recursed into with the key
appended to the path, and the nested entries are copied into the
outer map. -/
def flattenGo : List (String × JVal) → String → FMap → FMap
  | [], _, acc => acc
  | (k, v) :: rest, pfx, acc =>
      match v with
      | JVal.obj fields =>
          if isContentFile k then
            flattenGo rest pfx (setKey acc (joinKey pfx k) fields)
          else
            flattenGo rest pfx
              ((flattenGo fields (joinKey pfx k) []).foldl
                (fun m p => setKey m p.1 p.2) acc)
      | _ => flattenGo rest pfx acc
termination_by data _ _ => sizeOf data
decreasing_by
  all_goals simp_wf <;> omega

def flattenToMap (data : Fields) (pfx : String) : FMap :=
  flattenGo data pfx []

/-- Embedding of the combination loop of `loadFrontmatterMap`
(src/frontmatter-map.ts lines 98-106): starting from a copy of the
central map, every per-directory entry is deep-merged over the central
entry for the same path when one exists, and inserted unchanged
otherwise. -/
def combineGo : FMap → List (String × Fields) → FMap
  | merged, [] => merged
  | merged, (k, dv) :: rest =>
      match lookupA merged k with
      | some cv => combineGo (setKey merged k (deepMerge cv dv)) rest
      | none => combineGo (setKey merged k dv) rest

/-- `loadFrontmatterMap` after both sources have been parsed into maps:
the pure combination of the flattened central map with the
per-directory map. -/
def loadFrontmatterCombine (central perDir : FMap) : FMap :=
  combineGo central perDir

/-- JS `String.prototype.endsWith`, expressed on character lists. -/
def strEndsWith (s sfx : String) : Bool :=
  sfx.data.isSuffixOf s.data

/-- Embedding of `parseDataFile` from `src/frontmatter-map.ts`.  The
concrete YAML/JSON grammars are abstracted as parameters returning
either a value or a parser error message; `.json` paths use the JSON
parser and everything else the YAML parser, whose `null` result is
replaced by the empty record (the JS `?? {}`).  A parser failure is
wrapped in an error naming the offending path. -/
def parseDataFileM (pj py : String → Except String JVal)
    (filePath content : String) : Except String JVal :=
  if strEndsWith filePath ".json" then
    match pj content with
    | Except.ok v => Except.ok v
    | Except.error m =>
        Except.error ("Failed to parse " ++ filePath ++ ": " ++ m)
  else
    match py content with
    | Except.ok JVal.null => Except.ok (JVal.obj [])
    | Except.ok v => Except.ok v
    | Except.error m =>
        Except.error ("Failed to parse " ++ filePath ++ ": " ++ m)

/-- Embedding of `parseCentralFile`: the file system is abstracted as a
partial map from paths to contents; a missing file yields the empty
record, a present file is parsed by `parseDataFileM`. -/
def parseCentralFileM (fs : String → Option String)
    (pj py : String → Except String JVal) (filePath : String) :
    Except String JVal :=
  match fs filePath with
  | none => Except.ok (JVal.obj [])
  | some content => parseDataFileM pj py filePath content

def isOkE (r : Except String JVal) : Bool :=
  match r with
  | Except.ok _ => true
  | Except.error _ => false

/-- One discovered per-directory document: every top-level record-valued
key becomes an entry keyed by the key prefixed with the document's
directory relative to the base (empty prefix at the root); other values
are skipped.  Embeds the body of the loop in `discoverPerDirFiles`
(src/frontmatter-map.ts lines 76-80). -/
def discoverDocGo (relDir : String) : Fields → FMap → FMap
  | [], acc => acc
  | (k, v) :: rest, acc =>
      match v with
      | JVal.obj f => discoverDocGo relDir rest (setKey acc (joinKey relDir k) f)
      | _ => discoverDocGo relDir rest acc

/-- Embedding of `discoverPerDirFiles`, with the filesystem walk
abstracted to the list of discovered documents, each given as the
directory path relative to the base together with its parsed data. -/
def discoverPerDirFiles (docs : List (String × Fields)) : FMap :=
  docs.foldl (fun m d => discoverDocGo d.1 d.2 m) []

/-- The JS regex whitespace class (the set matched by backslash-s). -/
def jsWs (c : Char) : Bool :=
  c = ' ' || c = '\t' || c = '\n' || c = '\r' ||
  c = Char.ofNat 11 || c = Char.ofNat 12 ||
  c = Char.ofNat 0xa0 || c = Char.ofNat 0x1680 ||
  (0x2000 ≤ c.toNat && c.toNat ≤ 0x200a) ||
  c = Char.ofNat 0x2028 || c = Char.ofNat 0x2029 ||
  c = Char.ofNat 0x202f || c = Char.ofNat 0x205f ||
  c = Char.ofNat 0x3000 || c = Char.ofNat 0xfeff

/-- Horizontal whitespace: the class written as not-non-whitespace minus
newline in H1_RE (src/h1.ts), i.e. JS whitespace other than the
newline. -/
def wsNoNl (c : Char) : Bool :=
  jsWs c && !(c = '\n')

/-- Consumption of complete whitespace-only lines, mirroring the leading
group of H1_RE: repeatedly drop horizontal whitespace followed by a
newline, stopping at the first line that is not blank or not
newline-terminated.  Fueled; one unit of fuel per consumed line, so the
input length is always sufficient fuel. -/
def skipBlanksF : Nat → List Char → List Char
  | 0, s => s
  | Nat.succ f, s =>
      match s.dropWhile wsNoNl with
      | '\n' :: rest => skipBlanksF f rest
      | _ => s

def skipBlanks (s : List Char) : List Char :=
  skipBlanksF s.length s

/-- The JavaScript line terminators, the exact character class that the
dot of a regex without the s flag refuses to match: line feed, carriage
return, line separator U+2028 and paragraph separator U+2029. -/
def lineTerm (c : Char) : Bool :=
  c = '\n' || c = '\r' || c = Char.ofNat 0x2028 || c = Char.ofNat 0x2029

/-- Input free of the line terminators other than the line feed: on such
input the dot class coincides with not-newline. -/
def lfOnly (c : Char) : Bool :=
  !(c = '\r' || c = Char.ofNat 0x2028 || c = Char.ofNat 0x2029)

/-- The heading match of H1_RE after the blank lines are consumed: a
hash, a space, at least one further character matched by the dot (which
excludes every JS line terminator, not only the line feed).  Returns the
raw heading text together with the body after the regex match (the
heading line with its optional line feed) with one further leading
newline removed, as the JS replace of a single leading newline does. -/
def goH1 : List Char → Option (List Char × List Char)
  | c1 :: c2 :: r =>
      if c1 = '#' ∧ c2 = ' ' then
        let txt := r.takeWhile (fun c => !lineTerm c)
        if txt = [] then none
        else
          let after := r.dropWhile (fun c => !lineTerm c)
          let after2 :=
            match after with
            | '\n' :: a => a
            | a => a
          let body :=
            match after2 with
            | '\n' :: a => a
            | a => a
          some (txt, body)
      else none
  | _ => none

/-- The backtick character, used by the inline-code pattern. -/
def btick : Char := Char.ofNat 96

/-- Lazy scan for a one-character closing delimiter: finds the shortest
line-terminator-free inner text followed by the delimiter (the lazy dot
of the source patterns excludes every JS line terminator). -/
def scanCloser1 (d : Char) : List Char → Option (List Char × List Char)
  | [] => none
  | a :: rest =>
      if a = d then some ([], rest)
      else if lineTerm a then none
      else
        match scanCloser1 d rest with
        | some (inner, u) => some (a :: inner, u)
        | none => none

/-- Lazy scan for a two-character closing delimiter (doubled `d`). -/
def scanCloser2 (d : Char) : List Char → Option (List Char × List Char)
  | a :: b :: rest =>
      if a = d ∧ b = d then some ([], rest)
      else if lineTerm a then none
      else
        match scanCloser2 d (b :: rest) with
        | some (inner, u) => some (a :: inner, u)
        | none => none
  | _ => none

/-- Image pattern of `flattenInlineMarkdown`: bang, bracketed alt text
(greedy, excluding the closing bracket), parenthesised url; replaced by
the alt text. -/
def matchImage : List Char → Option (List Char × List Char)
  | c1 :: c2 :: r =>
      if c1 = '!' ∧ c2 = '[' then
        match r.dropWhile (fun c => ¬ (c = ']')) with
        | ']' :: '(' :: r2 =>
            (match r2.dropWhile (fun c => ¬ (c = ')')) with
              | ')' :: r3 => some (r.takeWhile (fun c => ¬ (c = ']')), r3)
              | _ => none)
        | _ => none
      else none
  | _ => none

/-- Link pattern: bracketed text followed by a parenthesised url,
replaced by the link text. -/
def matchLink : List Char → Option (List Char × List Char)
  | c1 :: r =>
      if c1 = '[' then
        match r.dropWhile (fun c => ¬ (c = ']')) with
        | ']' :: '(' :: r2 =>
            (match r2.dropWhile (fun c => ¬ (c = ')')) with
              | ')' :: r3 => some (r.takeWhile (fun c => ¬ (c = ']')), r3)
              | _ => none)
        | _ => none
      else none
  | _ => none

/-- Bold pattern: doubled star or doubled underscore delimiters with a
lazy inner text closed by the same delimiter. -/
def matchBold : List Char → Option (List Char × List Char)
  | c1 :: c2 :: r =>
      if c1 = '*' ∧ c2 = '*' then scanCloser2 '*' r
      else if c1 = '_' ∧ c2 = '_' then scanCloser2 '_' r
      else none
  | _ => none

/-- Italic pattern: single star or underscore delimiters. -/
def matchItalic : List Char → Option (List Char × List Char)
  | c1 :: r =>
      if c1 = '*' then scanCloser1 '*' r
      else if c1 = '_' then scanCloser1 '_' r
      else none
  | _ => none

/-- Strikethrough pattern: doubled tildes. -/
def matchStrike : List Char → Option (List Char × List Char)
  | c1 :: c2 :: r =>
      if c1 = '~' ∧ c2 = '~' then scanCloser2 '~' r
      else none
  | _ => none

/-- Inline-code pattern: backticks around a non-empty inner text.  The
character class of the inner text excludes only the backtick, so it may
span newlines. -/
def matchCode : List Char → Option (List Char × List Char)
  | c1 :: r =>
      if c1 = btick then
        let inner := r.takeWhile (fun c => ¬ (c = btick))
        if inner = [] then none
        else
          match r.dropWhile (fun c => ¬ (c = btick)) with
          | c2 :: u => if c2 = btick then some (inner, u) else none
          | _ => none
      else none
  | _ => none

/-- One global regex replacement pass: scan left to right, replacing
every match of `m` by its captured text and keeping other characters.
Fueled; a match always consumes at least one character, so the input
length is sufficient fuel. -/
def gRep (m : List Char → Option (List Char × List Char)) :
    Nat → List Char → List Char
  | _, [] => []
  | 0, s => s
  | Nat.succ f, c :: rest =>
      match m (c :: rest) with
      | some (r, u) => r ++ gRep m f u
      | none => c :: gRep m f rest

def runRep (m : List Char → Option (List Char × List Char))
    (s : List Char) : List Char :=
  gRep m s.length s

/-- JS `String.prototype.trim` on characters. -/
def jsTrim (s : List Char) : List Char :=
  ((s.dropWhile jsWs).reverse.dropWhile jsWs).reverse

/-- Embedding of `flattenInlineMarkdown` from `src/h1.ts`: the six
global replacements in source order — images, links, bold, italic,
strikethrough, inline code — followed by a trim. -/
def flattenInlineMarkdown (s : List Char) : List Char :=
  jsTrim (runRep matchCode (runRep matchStrike (runRep matchItalic
    (runRep matchBold (runRep matchLink (runRep matchImage s))))))

/-- Embedding of `extractH1` from `src/h1.ts` on character lists: match
H1_RE (leading blank lines, then a hash-space heading line), flatten the
heading text to plain text, and return it with the remaining body. -/
def extractH1core (s : List Char) : Option (List Char × List Char) :=
  (goH1 (skipBlanks s)).map (fun p => (flattenInlineMarkdown p.1, p.2))

def extractH1 (markdown : String) : Option (String × String) :=
  (extractH1core markdown.data).map (fun p => (String.mk p.1, String.mk p.2))

/-- Opening tag of the rendered-heading pattern H1_HTML_RE: a literal
angle-h-1, any characters other than the closing angle, then the closing
angle. -/
def matchH1Open : List Char → Option (List Char)
  | c1 :: c2 :: c3 :: r =>
      if c1 = '<' ∧ c2 = 'h' ∧ c3 = '1' then
        match r.dropWhile (fun c => ¬ (c = '>')) with
        | '>' :: r2 => some r2
        | _ => none
      else none
  | _ => none

/-- Lazy search for the literal closing tag of a level-1 heading
element; returns what follows the first occurrence. -/
def findH1Close : List Char → Option (List Char)
  | c1 :: c2 :: c3 :: c4 :: c5 :: r =>
      if c1 = '<' ∧ c2 = '/' ∧ c3 = 'h' ∧ c4 = '1' ∧ c5 = '>' then some r
      else findH1Close (c2 :: c3 :: c4 :: c5 :: r)
  | _ :: t => findH1Close t
  | [] => none

/-- Embedding of `stripH1Html` from `src/h1.ts`: remove the first
occurrence of a level-1 heading element together with any immediately
trailing newlines; positions are tried left to right and only a position
with both an opening tag and a later closing tag matches. -/
def stripH1Go : List Char → List Char
  | [] => []
  | c :: rest =>
      match matchH1Open (c :: rest) with
      | some r =>
          (match findH1Close r with
            | some r2 => r2.dropWhile (fun x => x = '\n')
            | none => c :: stripH1Go rest)
      | none => c :: stripH1Go rest

def stripH1Html (html : String) : String :=
  String.mk (stripH1Go html.data)

/-- Search for the closing fence line of the frontmatter regex: the
first newline followed by three dashes; returns what follows the
dashes. -/
def scanFenceClose : List Char → Option (List Char)
  | c1 :: c2 :: c3 :: c4 :: r =>
      if c1 = '\n' ∧ c2 = '-' ∧ c3 = '-' ∧ c4 = '-' then some r
      else scanFenceClose (c2 :: c3 :: c4 :: r)
  | _ :: t => scanFenceClose t
  | [] => none

/-- Embedding of the frontmatter-fence skip in the `parseData` wrapper
(src/index.ts): the regex anchored at the start matches three dashes and
a newline, lazily anything up to a newline followed by three dashes, and
an optional trailing newline; the body is everything after the match,
or the whole file when the regex does not match. -/
def fenceBody (raw : List Char) : List Char :=
  match raw with
  | c1 :: c2 :: c3 :: c4 :: rest =>
      if c1 = '-' ∧ c2 = '-' ∧ c3 = '-' ∧ c4 = '\n' then
        match scanFenceClose rest with
        | some after =>
            (match after with
              | '\n' :: b => b
              | b => b)
        | none => raw
      else raw
  | _ => raw

/-- JS truthiness of a property access: absent, null, false, zero and
the empty string are falsy; everything else is truthy. -/
def truthyOpt : Option JVal → Bool
  | none => false
  | some JVal.null => false
  | some (JVal.bool b) => b
  | some (JVal.num n) => !(n = 0)
  | some (JVal.str s) => !(s = "")
  | some (JVal.arr _) => true
  | some (JVal.obj _) => true

/-- Embedding of the `parseData` wrapper of `globFrontmatter`
(src/index.ts): merge the external record for the file's relative path
(empty when absent) under the declared data, then, when the merged
`title` is falsy, read the file (the read result is abstracted; `none`
is a read failure, silently skipped), cut the frontmatter fence, run
`extractH1` on the body and set the extracted text as `title` when a
heading was found. -/
def parseDataWrapped (fmMap : FMap) (relPath : String)
    (readResult : Option String) (declared : Fields) : Fields :=
  let externalData := (lookupA fmMap relPath).getD []
  let merged := deepMerge externalData declared
  if truthyOpt (lookupA merged "title") then merged
  else
    match readResult with
    | none => merged
    | some raw =>
        match extractH1 (String.mk (fenceBody raw.data)) with
        | some p => setKey merged "title" (JVal.str p.1)
        | none => merged

structure HeadingE where
  depth : Nat
  slug : String
  text : String
deriving DecidableEq

structure MetaE where
  headings : Option (List HeadingE)
deriving DecidableEq

structure RenderedE where
  html : String
  metadata : Option MetaE
deriving DecidableEq

structure EntryE where
  id : String
  data : Fields
  body : Option String
  rendered : Option RenderedE

/-- Embedding of the `store.set` wrapper of `globFrontmatter`
(src/index.ts lines 73-108): when a non-empty body is present and
`extractH1` matches, the body is replaced by the stripped body; when a
rendered part is present, its html is passed through `stripH1Html` and,
when the headings list is present and starts with a depth-1 entry, that
first entry is dropped. -/
def storeSetWrap (e : EntryE) : EntryE :=
  let e1 :=
    match e.body with
    | some b =>
        if b = "" then e
        else
          (match extractH1 b with
            | some p => { e with body := some p.2 }
            | none => e)
    | none => e
  match e1.rendered with
  | none => e1
  | some r =>
      let md2 :=
        match r.metadata with
        | none => none
        | some m =>
            match m.headings with
            | none => some m
            | some hs =>
                (match hs with
                  | h0 :: tl =>
                      if h0.depth = 1 then some (MetaE.mk (some tl)) else some m
                  | [] => some m)
      { e1 with rendered := some (RenderedE.mk (stripH1Html r.html) md2) }

/-- Modelled from the spec (section 4.2, the heading-extraction rules of
the design document): the lines of a markdown body, split at every
newline. -/
def linesOf : List Char → List (List Char)
  | [] => [[]]
  | c :: t =>
      if c = '\n' then [] :: linesOf t
      else
        match linesOf t with
        | [] => [[c]]
        | h :: r => (c :: h) :: r

/-- Inverse of `linesOf`: join lines with newline separators. -/
def joinLines : List (List Char) → List Char
  | [] => []
  | [l] => l
  | l :: rest => l ++ '\n' :: joinLines rest

/-- A blank line in the spec's sense: only horizontal whitespace. -/
def isBlankLine (l : List Char) : Bool :=
  l.all wsNoNl

/-- Spec-side extraction at the line level: skip newline-terminated
blank lines; the first remaining line qualifies iff it starts with a
hash and a space followed by at least one character; on a match the raw
heading text and the following lines are returned. -/
def specGo : List (List Char) → Option (List Char × List (List Char))
  | [] => none
  | l :: rest =>
      if isBlankLine l then
        (if rest.isEmpty then none else specGo rest)
      else
        match l with
        | c1 :: c2 :: txt =>
            if c1 = '#' ∧ c2 = ' ' ∧ ¬ (txt = []) then some (txt, rest)
            else none
        | _ => none

/-- Spec-side body: the lines after the heading line joined back
together, with one immediately following empty line removed. -/
def specBody (rest : List (List Char)) : List Char :=
  match rest with
  | [] => []
  | [] :: r2 => joinLines r2
  | r => joinLines r

/-- Modelled from the spec: `extractLeadingHeading` described at the
line level — the qualifying heading is the first non-blank line when it
begins with hash-space-text, and the body is the original markdown minus
the consumed blank lines, the heading line, and at most one immediately
following blank line. -/
def specExtractLeadingHeading (s : List Char) :
    Option (List Char × List Char) :=
  (specGo (linesOf s)).map (fun p => (p.1, specBody p.2))

/-- Formatting-trigger characters of the six inline replacement
patterns. -/
def isFmtChar (c : Char) : Bool :=
  c = '!' || c = '[' || c = '*' || c = '_' || c = '~' || c = btick

theorem keysOf_nil {α : Type} : keysOf ([] : List (String × α)) = [] := rfl

theorem keysOf_cons {α : Type} (p : String × α) (l : List (String × α)) :
    keysOf (p :: l) = p.1 :: keysOf l := rfl

theorem keysOf_setKey_of_mem {α : Type} (l : List (String × α)) (k : String)
    (v : α) (h : k ∈ keysOf l) : keysOf (setKey l k v) = keysOf l := by
  induction l with
  | nil => simp [keysOf_nil] at h
  | cons q rest ih =>
      by_cases hq : q.1 = k
      · simp [setKey, hq, keysOf_cons]
      · rw [keysOf_cons, List.mem_cons] at h
        rcases h with hh | hm
        · exact absurd hh.symm hq
        · simp only [setKey, if_neg hq, keysOf_cons]
          rw [ih hm]

theorem keysOf_setKey_of_not_mem {α : Type} (l : List (String × α))
    (k : String) (v : α) (h : k ∉ keysOf l) :
    keysOf (setKey l k v) = keysOf l ++ [k] := by
  induction l with
  | nil => simp [setKey, keysOf_nil, keysOf_cons]
  | cons q rest ih =>
      have hq : ¬ q.1 = k := fun hc => h (by rw [keysOf_cons]; exact hc ▸ List.mem_cons_self _ _)
      have hr : k ∉ keysOf rest := fun hc => h (by rw [keysOf_cons]; exact List.mem_cons_of_mem _ hc)
      simp only [setKey, if_neg hq, keysOf_cons, List.cons_append]
      rw [ih hr]

theorem mem_keysOf_setKey {α : Type} (l : List (String × α)) (k k' : String)
    (v : α) : k' ∈ keysOf (setKey l k v) ↔ k' ∈ keysOf l ∨ k' = k := by
  by_cases h : k ∈ keysOf l
  · rw [keysOf_setKey_of_mem l k v h]
    constructor
    · exact Or.inl
    · rintro (hm | rfl)
      · exact hm
      · exact h
  · rw [keysOf_setKey_of_not_mem l k v h]
    simp

theorem nodup_setKey {α : Type} (l : List (String × α)) (k : String) (v : α)
    (h : KeysNodup l) : KeysNodup (setKey l k v) := by
  unfold KeysNodup at *
  by_cases hm : k ∈ keysOf l
  · rw [show List.map Prod.fst (setKey l k v) = keysOf (setKey l k v) from rfl,
      keysOf_setKey_of_mem l k v hm]
    exact h
  · rw [show List.map Prod.fst (setKey l k v) = keysOf (setKey l k v) from rfl,
      keysOf_setKey_of_not_mem l k v hm]
    simp only [List.nodup_append]
    refine ⟨h, List.nodup_singleton k, ?_⟩
    intro x hx
    simp only [List.mem_singleton]
    intro hc
    exact hm (hc ▸ hx)

theorem lookupA_setKey_self {α : Type} (l : List (String × α)) (k : String)
    (v : α) : lookupA (setKey l k v) k = some v := by
  induction l with
  | nil => simp [setKey, lookupA]
  | cons q rest ih =>
      by_cases hq : q.1 = k
      · simp [setKey, hq, lookupA]
      · simp [setKey, hq, lookupA, ih]

theorem lookupA_setKey_ne {α : Type} (l : List (String × α)) (k k' : String)
    (v : α) (h : k' ≠ k) : lookupA (setKey l k v) k' = lookupA l k' := by
  induction l with
  | nil =>
      simp only [setKey, lookupA]
      rw [if_neg (fun hc : k = k' => h hc.symm)]
  | cons q rest ih =>
      by_cases hq : q.1 = k
      · have hqk : ¬ q.1 = k' := fun hc => h (hc ▸ hq)
        simp only [setKey, if_pos hq, lookupA]
        rw [if_neg hqk, if_neg hqk]
      · simp only [setKey, if_neg hq, lookupA]
        by_cases hqk : q.1 = k'
        · rw [if_pos hqk, if_pos hqk]
        · rw [if_neg hqk, if_neg hqk, ih]

theorem lookupA_eq_none_iff {α : Type} (l : List (String × α)) (k : String) :
    lookupA l k = none ↔ k ∉ keysOf l := by
  induction l with
  | nil => simp [lookupA, keysOf_nil]
  | cons q rest ih =>
      rw [keysOf_cons]
      by_cases hq : q.1 = k
      · simp [lookupA, hq]
      · simp only [lookupA, if_neg hq, List.mem_cons, ih]
        constructor
        · rintro hm (hc | hc)
          · exact hq hc.symm
          · exact hm hc
        · intro hm hc
          exact hm (Or.inr hc)

theorem lookupA_isSome_iff {α : Type} (l : List (String × α)) (k : String) :
    (lookupA l k).isSome = true ↔ k ∈ keysOf l := by
  rcases ho : lookupA l k with _ | v
  · simpa using (lookupA_eq_none_iff l k).mp ho
  · simp only [Option.isSome_some, true_iff]
    by_contra hc
    rw [(lookupA_eq_none_iff l k).mpr hc] at ho
    exact Option.noConfusion ho

theorem assoc_ext {α : Type} (l1 l2 : List (String × α))
    (hk : keysOf l1 = keysOf l2) (hn : KeysNodup l1)
    (hl : ∀ k, lookupA l1 k = lookupA l2 k) : l1 = l2 := by
  induction l1 generalizing l2 with
  | nil =>
      cases l2 with
      | nil => rfl
      | cons q r => simp [keysOf] at hk
  | cons p r1 ih =>
      cases l2 with
      | nil => simp [keysOf] at hk
      | cons q r2 =>
          simp only [keysOf, List.map_cons, List.cons.injEq] at hk
          obtain ⟨hfst, htl⟩ := hk
          have hv : p.2 = q.2 := by
            have := hl p.1
            simp [lookupA, hfst.symm] at this
            exact this
          have hpn : p.1 ∉ keysOf r1 := by
            unfold KeysNodup at hn
            simp only [List.map_cons, List.nodup_cons] at hn
            exact hn.1
          have htail : r1 = r2 := by
            refine ih r2 htl ?_ ?_
            · unfold KeysNodup at hn ⊢
              simp only [List.map_cons, List.nodup_cons] at hn
              exact hn.2
            · intro k
              by_cases hkp : k = p.1
              · subst hkp
                have hpn2 : p.1 ∉ keysOf r2 := by
                  unfold keysOf
                  rw [← htl]
                  exact hpn
                rw [(lookupA_eq_none_iff r1 p.1).mpr hpn,
                  (lookupA_eq_none_iff r2 p.1).mpr hpn2]
              · have hpk : ¬ p.1 = k := fun hc => hkp hc.symm
                have hqk : ¬ q.1 = k := fun hc => hkp (hc ▸ hfst).symm
                have := hl k
                simpa [lookupA, if_neg hpk, if_neg hqk] using this
          cases p; cases q
          simp only at hfst hv
          simp [hfst, hv, htail]

theorem deepMerge_nil (r : Fields) : deepMerge r [] = r := by
  simp [deepMerge]

theorem deepMerge_cons_blocked (r : Fields) (k : String) (v : JVal)
    (rest : Fields) (h : blockedKey k = true) :
    deepMerge r ((k, v) :: rest) = deepMerge r rest := by
  rw [deepMerge.eq_def]
  simp [h]

theorem deepMerge_cons_objobj (r : Fields) (k : String) (s t : Fields)
    (rest : Fields) (h : ¬ blockedKey k = true)
    (ht : lookupA r k = some (JVal.obj t)) :
    deepMerge r ((k, JVal.obj s) :: rest)
      = deepMerge (setKey r k (JVal.obj (deepMerge t s))) rest := by
  rw [deepMerge.eq_2 r k rest t s ht, if_neg h]

theorem deepMerge_cons_replace (r : Fields) (k : String) (v : JVal)
    (rest : Fields) (h : ¬ blockedKey k = true)
    (hnb : ¬ bothRecords (lookupA r k) v) :
    deepMerge r ((k, v) :: rest) = deepMerge (setKey r k v) rest := by
  have hF : ∀ t s : List (String × JVal),
      lookupA r k = some (JVal.obj t) → v = JVal.obj s → False := by
    intro t s ht hv
    exact hnb ⟨⟨t, ht⟩, ⟨s, hv⟩⟩
  rw [deepMerge.eq_3 r k rest v hF, if_neg h]

theorem deepMerge_cons_not_blocked (r : Fields) (k : String) (v : JVal)
    (rest : Fields) (h : ¬ blockedKey k = true) :
    ∃ nv, deepMerge r ((k, v) :: rest) = deepMerge (setKey r k nv) rest := by
  by_cases hb : bothRecords (lookupA r k) v
  · obtain ⟨⟨t, ht⟩, ⟨s, hs⟩⟩ := hb
    subst hs
    exact ⟨JVal.obj (deepMerge t s), deepMerge_cons_objobj r k s t rest h ht⟩
  · exact ⟨v, deepMerge_cons_replace r k v rest h hb⟩

theorem mem_keysOf_deepMerge (src : Fields) (r : Fields) (k' : String) :
    k' ∈ keysOf (deepMerge r src)
      ↔ k' ∈ keysOf r ∨ (k' ∈ keysOf src ∧ ¬ blockedKey k' = true) := by
  induction src generalizing r with
  | nil => simp [deepMerge_nil, keysOf_nil]
  | cons p rest ih =>
      obtain ⟨k0, v0⟩ := p
      rw [keysOf_cons]
      by_cases hb : blockedKey k0 = true
      · rw [deepMerge_cons_blocked r k0 v0 rest hb, ih]
        constructor
        · rintro (hr | ⟨hm, hnb⟩)
          · exact Or.inl hr
          · exact Or.inr ⟨List.mem_cons_of_mem _ hm, hnb⟩
        · rintro (hr | ⟨hm, hnb⟩)
          · exact Or.inl hr
          · rcases List.mem_cons.mp hm with rfl | hm2
            · exact absurd hb hnb
            · exact Or.inr ⟨hm2, hnb⟩
      · obtain ⟨nv, he⟩ := deepMerge_cons_not_blocked r k0 v0 rest hb
        rw [he, ih]
        rw [mem_keysOf_setKey]
        constructor
        · rintro (⟨hr | rfl⟩ | ⟨hm, hnb⟩)
          · exact Or.inl hr
          · exact Or.inr ⟨List.mem_cons_self _ _, hb⟩
          · exact Or.inr ⟨List.mem_cons_of_mem _ hm, hnb⟩
        · rintro (hr | ⟨hm, hnb⟩)
          · exact Or.inl (Or.inl hr)
          · rcases List.mem_cons.mp hm with rfl | hm2
            · exact Or.inl (Or.inr rfl)
            · exact Or.inr ⟨hm2, hnb⟩

theorem keysOf_deepMerge_of_covered (src : Fields) (r : Fields)
    (h : ∀ k, k ∈ keysOf src → ¬ blockedKey k = true → k ∈ keysOf r) :
    keysOf (deepMerge r src) = keysOf r := by
  induction src generalizing r with
  | nil => rw [deepMerge_nil]
  | cons p rest ih =>
      obtain ⟨k0, v0⟩ := p
      by_cases hb : blockedKey k0 = true
      · rw [deepMerge_cons_blocked r k0 v0 rest hb]
        exact ih r (fun k hk hnb =>
          h k (by rw [keysOf_cons]; exact List.mem_cons_of_mem _ hk) hnb)
      · obtain ⟨nv, he⟩ := deepMerge_cons_not_blocked r k0 v0 rest hb
        have hk0 : k0 ∈ keysOf r :=
          h k0 (by rw [keysOf_cons]; exact List.mem_cons_self _ _) hb
        rw [he, ih (setKey r k0 nv) ?_, keysOf_setKey_of_mem r k0 nv hk0]
        intro k hk hnb
        rw [keysOf_setKey_of_mem r k0 nv hk0]
        exact h k (by rw [keysOf_cons]; exact List.mem_cons_of_mem _ hk) hnb

theorem nodup_deepMerge (src : Fields) (r : Fields) (h : KeysNodup r) :
    KeysNodup (deepMerge r src) := by
  induction src generalizing r with
  | nil => rw [deepMerge_nil]; exact h
  | cons p rest ih =>
      obtain ⟨k0, v0⟩ := p
      by_cases hb : blockedKey k0 = true
      · rw [deepMerge_cons_blocked r k0 v0 rest hb]
        exact ih r h
      · obtain ⟨nv, he⟩ := deepMerge_cons_not_blocked r k0 v0 rest hb
        rw [he]
        exact ih _ (nodup_setKey r k0 nv h)

theorem lookupA_deepMerge_src_none (src : Fields) (r : Fields) (k : String)
    (h : lookupA src k = none) :
    lookupA (deepMerge r src) k = lookupA r k := by
  induction src generalizing r with
  | nil => rw [deepMerge_nil]
  | cons p rest ih =>
      obtain ⟨k0, v0⟩ := p
      have hk0 : ¬ k0 = k := by
        intro hc
        simp [lookupA, hc] at h
      have hr : lookupA rest k = none := by
        simpa [lookupA, hk0] using h
      by_cases hb : blockedKey k0 = true
      · rw [deepMerge_cons_blocked r k0 v0 rest hb]
        exact ih r hr
      · obtain ⟨nv, he⟩ := deepMerge_cons_not_blocked r k0 v0 rest hb
        rw [he, ih (setKey r k0 nv) hr,
          lookupA_setKey_ne r k0 k nv (fun hc => hk0 hc.symm)]

theorem lookupA_deepMerge_blocked (src : Fields) (r : Fields) (k : String)
    (hb : blockedKey k = true) :
    lookupA (deepMerge r src) k = lookupA r k := by
  induction src generalizing r with
  | nil => rw [deepMerge_nil]
  | cons p rest ih =>
      obtain ⟨k0, v0⟩ := p
      by_cases hb0 : blockedKey k0 = true
      · rw [deepMerge_cons_blocked r k0 v0 rest hb0]
        exact ih r
      · obtain ⟨nv, he⟩ := deepMerge_cons_not_blocked r k0 v0 rest hb0
        have hne : k ≠ k0 := fun hc => hb0 (hc ▸ hb)
        rw [he, ih, lookupA_setKey_ne r k0 k nv hne]

theorem lookupA_deepMerge_objobj (src : Fields) (r : Fields) (k : String)
    (s t : Fields) (hn : KeysNodup src) (hb : ¬ blockedKey k = true)
    (hs : lookupA src k = some (JVal.obj s))
    (ht : lookupA r k = some (JVal.obj t)) :
    lookupA (deepMerge r src) k = some (JVal.obj (deepMerge t s)) := by
  induction src generalizing r with
  | nil => simp [lookupA] at hs
  | cons p rest ih =>
      obtain ⟨k0, v0⟩ := p
      by_cases hk0 : k0 = k
      · subst hk0
        have hv0 : v0 = JVal.obj s := by
          simpa [lookupA] using hs
        subst hv0
        have hrest : lookupA rest k0 = none := by
          rw [lookupA_eq_none_iff]
          unfold KeysNodup at hn
          simp only [List.map_cons, List.nodup_cons] at hn
          exact hn.1
        rw [deepMerge_cons_objobj r k0 s t rest hb ht,
          lookupA_deepMerge_src_none rest _ k0 hrest,
          lookupA_setKey_self]
      · have hs2 : lookupA rest k = some (JVal.obj s) := by
          simpa [lookupA, hk0] using hs
        have hn2 : KeysNodup rest := by
          unfold KeysNodup at hn ⊢
          simp only [List.map_cons, List.nodup_cons] at hn
          exact hn.2
        by_cases hb0 : blockedKey k0 = true
        · rw [deepMerge_cons_blocked r k0 v0 rest hb0]
          exact ih r hn2 hs2 ht
        · obtain ⟨nv, he⟩ := deepMerge_cons_not_blocked r k0 v0 rest hb0
          rw [he]
          exact ih (setKey r k0 nv) hn2 hs2
            (by rw [lookupA_setKey_ne r k0 k nv (fun hc => hk0 hc.symm)]; exact ht)

theorem lookupA_deepMerge_replace (src : Fields) (r : Fields) (k : String)
    (sv : JVal) (hn : KeysNodup src) (hb : ¬ blockedKey k = true)
    (hs : lookupA src k = some sv)
    (hnb : ¬ bothRecords (lookupA r k) sv) :
    lookupA (deepMerge r src) k = some sv := by
  induction src generalizing r with
  | nil => simp [lookupA] at hs
  | cons p rest ih =>
      obtain ⟨k0, v0⟩ := p
      by_cases hk0 : k0 = k
      · subst hk0
        have hv0 : v0 = sv := by
          simpa [lookupA] using hs
        subst hv0
        have hrest : lookupA rest k0 = none := by
          rw [lookupA_eq_none_iff]
          unfold KeysNodup at hn
          simp only [List.map_cons, List.nodup_cons] at hn
          exact hn.1
        rw [deepMerge_cons_replace r k0 v0 rest hb hnb,
          lookupA_deepMerge_src_none rest _ k0 hrest,
          lookupA_setKey_self]
      · have hs2 : lookupA rest k = some sv := by
          simpa [lookupA, hk0] using hs
        have hn2 : KeysNodup rest := by
          unfold KeysNodup at hn ⊢
          simp only [List.map_cons, List.nodup_cons] at hn
          exact hn.2
        by_cases hb0 : blockedKey k0 = true
        · rw [deepMerge_cons_blocked r k0 v0 rest hb0]
          exact ih r hn2 hs2 hnb
        · obtain ⟨nv, he⟩ := deepMerge_cons_not_blocked r k0 v0 rest hb0
          rw [he]
          refine ih (setKey r k0 nv) hn2 hs2 ?_
          rw [lookupA_setKey_ne r k0 k nv (fun hc => hk0 hc.symm)]
          exact hnb

theorem wfFields_tail (k : String) (v : JVal) (rest : Fields)
    (h : wfFields ((k, v) :: rest) = true) : wfFields rest = true := by
  simp only [wfFields, Bool.and_eq_true] at h
  exact h.2

theorem wfFields_nodup (l : Fields) (h : wfFields l = true) : KeysNodup l := by
  induction l with
  | nil => simp [KeysNodup]
  | cons p rest ih =>
      obtain ⟨k, v⟩ := p
      simp only [wfFields, Bool.and_eq_true, Bool.not_eq_true'] at h
      unfold KeysNodup
      simp only [List.map_cons, List.nodup_cons]
      refine ⟨?_, ih h.2⟩
      intro hc
      have : (keysOf rest).contains k = true := by
        exact List.elem_eq_true_of_mem hc
      rw [h.1.1] at this
      exact Bool.noConfusion this

theorem wfFields_lookup (l : Fields) (k : String) (v : JVal)
    (h : wfFields l = true) (hl : lookupA l k = some v) : wfVal v = true := by
  induction l with
  | nil => exact Option.noConfusion hl
  | cons p rest ih =>
      obtain ⟨k0, v0⟩ := p
      simp only [wfFields, Bool.and_eq_true] at h
      by_cases hk : k0 = k
      · have : v0 = v := by simpa [lookupA, hk] using hl
        exact this ▸ h.1.2
      · exact ih h.2 (by simpa [lookupA, hk] using hl)

theorem sizeOf_lookup_lt (l : Fields) (k : String) (t : Fields)
    (h : lookupA l k = some (JVal.obj t)) : sizeOf t < sizeOf l := by
  induction l with
  | nil => exact Option.noConfusion h
  | cons p rest ih =>
      obtain ⟨k0, v0⟩ := p
      by_cases hk : k0 = k
      · have hv : v0 = JVal.obj t := by simpa [lookupA, hk] using h
        subst hv
        simp
        omega
      · have := ih (by simpa [lookupA, hk] using h)
        simp
        omega

theorem deepMerge_self_aux :
    ∀ (n : Nat) (s : Fields), sizeOf s ≤ n → wfFields s = true →
      deepMerge s s = s := by
  intro n
  induction n with
  | zero =>
      intro s hs _
      exfalso
      cases s <;> simp at hs
  | succ n ih =>
      intro s hs hw
      refine assoc_ext (deepMerge s s) s ?_ ?_ ?_
      · exact keysOf_deepMerge_of_covered s s (fun k hk _ => hk)
      · exact nodup_deepMerge s s (wfFields_nodup s hw)
      · intro k
        rcases hsk : lookupA s k with _ | v
        · rw [lookupA_deepMerge_src_none s s k hsk, hsk]
        · by_cases hb : blockedKey k = true
          · rw [lookupA_deepMerge_blocked s s k hb, hsk]
          · by_cases hov : ∃ s0, v = JVal.obj s0
            · obtain ⟨t, rfl⟩ := hov
              rw [lookupA_deepMerge_objobj s s k t t (wfFields_nodup s hw) hb
                  hsk hsk]
              have hlt : sizeOf t < sizeOf s := sizeOf_lookup_lt s k t hsk
              have hwt : wfFields t = true := by
                have := wfFields_lookup s k (JVal.obj t) hw hsk
                simpa [wfVal] using this
              rw [ih t (by omega) hwt]
            · rw [lookupA_deepMerge_replace s s k v (wfFields_nodup s hw) hb hsk
                  (fun hbr => hov ⟨hbr.2.choose, hbr.2.choose_spec⟩)]

/-- Re-applying the same overlay to an already merged record is the
identity, provided both records are well formed. -/
theorem deepMerge_self (s : Fields) (h : wfFields s = true) :
    deepMerge s s = s :=
  deepMerge_self_aux (sizeOf s) s le_rfl h

theorem deepMerge_idem_aux :
    ∀ (n : Nat) (a b : Fields), sizeOf b ≤ n → wfFields a = true →
      wfFields b = true → deepMerge (deepMerge a b) b = deepMerge a b := by
  intro n
  induction n with
  | zero =>
      intro a b hs _ _
      exfalso
      cases b <;> simp at hs
  | succ n ih =>
      intro a b hs hwa hwb
      have hna : KeysNodup a := wfFields_nodup a hwa
      have hnb : KeysNodup b := wfFields_nodup b hwb
      have hnm : KeysNodup (deepMerge a b) := nodup_deepMerge b a hna
      refine assoc_ext (deepMerge (deepMerge a b) b) (deepMerge a b) ?_ ?_ ?_
      · refine keysOf_deepMerge_of_covered b (deepMerge a b) ?_
        intro k hk hkb
        exact (mem_keysOf_deepMerge b a k).mpr (Or.inr ⟨hk, hkb⟩)
      · exact nodup_deepMerge b (deepMerge a b) hnm
      · intro k
        rcases hsb : lookupA b k with _ | v
        · rw [lookupA_deepMerge_src_none b (deepMerge a b) k hsb]
        · by_cases hbk : blockedKey k = true
          · rw [lookupA_deepMerge_blocked b (deepMerge a b) k hbk]
          · have hwv : wfVal v = true := wfFields_lookup b k v hwb hsb
            by_cases hov : ∃ s0, v = JVal.obj s0
            · obtain ⟨s, rfl⟩ := hov
              have hws : wfFields s = true := by simpa [wfVal] using hwv
              have hlts : sizeOf s < sizeOf b := sizeOf_lookup_lt b k s hsb
              by_cases how : ∃ t0, lookupA a k = some (JVal.obj t0)
              · obtain ⟨t, hsa⟩ := how
                have h1 : lookupA (deepMerge a b) k
                    = some (JVal.obj (deepMerge t s)) :=
                  lookupA_deepMerge_objobj b a k s t hnb hbk hsb hsa
                rw [lookupA_deepMerge_objobj b (deepMerge a b) k s
                    (deepMerge t s) hnb hbk hsb h1, h1]
                have hwt : wfFields t = true := by
                  have := wfFields_lookup a k (JVal.obj t) hwa hsa
                  simpa [wfVal] using this
                rw [ih t s (by omega) hwt hws]
              · have h1 : lookupA (deepMerge a b) k = some (JVal.obj s) := by
                  refine lookupA_deepMerge_replace b a k _ hnb hbk hsb ?_
                  rintro ⟨⟨t0, ht0⟩, _⟩
                  exact how ⟨t0, ht0⟩
                rw [lookupA_deepMerge_objobj b (deepMerge a b) k s s hnb hbk
                    hsb h1, h1, deepMerge_self s hws]
            · have hnotrec : ∀ o : Option JVal, ¬ bothRecords o v :=
                fun o hbr => hov ⟨hbr.2.choose, hbr.2.choose_spec⟩
              rw [lookupA_deepMerge_replace b (deepMerge a b) k v hnb hbk hsb
                  (hnotrec _),
                lookupA_deepMerge_replace b a k v hnb hbk hsb (hnotrec _)]

/-- Merging the same overlay twice is idempotent on well-formed
records. -/
theorem deepMerge_idem (a b : Fields) (ha : wfFields a = true)
    (hb : wfFields b = true) :
    deepMerge (deepMerge a b) b = deepMerge a b :=
  deepMerge_idem_aux (sizeOf b) a b le_rfl ha hb

/-- C1: for all records `base` and `overlay` (with JS-object key
uniqueness on the overlay), every key present in either input appears in
`deepMerge base overlay` except blocked keys occurring only in the
overlay; an overlapping non-blocked key whose base and overlay values
are both plain records holds their recursive merge, and otherwise holds
the overlay value wholesale — including arrays (replaced, never
concatenated) and explicit null (which overwrites a present base
value). -/
theorem deepMerge_result_guarantee (base overlay : Fields)
    (hn : KeysNodup overlay) :
    (∀ k, k ∈ keysOf (deepMerge base overlay)
        ↔ k ∈ keysOf base ∨ (k ∈ keysOf overlay ∧ ¬ blockedKey k = true)) ∧
    (∀ k t s, ¬ blockedKey k = true →
        lookupA base k = some (JVal.obj t) →
        lookupA overlay k = some (JVal.obj s) →
        lookupA (deepMerge base overlay) k = some (JVal.obj (deepMerge t s))) ∧
    (∀ k sv, ¬ blockedKey k = true →
        lookupA overlay k = some sv → ¬ bothRecords (lookupA base k) sv →
        lookupA (deepMerge base overlay) k = some sv) ∧
    deepMerge [("tags", JVal.arr [JVal.str "a"])]
        [("tags", JVal.arr [JVal.str "b", JVal.str "c"])]
      = [("tags", JVal.arr [JVal.str "b", JVal.str "c"])] ∧
    deepMerge [("a", JVal.num 1)] [("a", JVal.null)] = [("a", JVal.null)] := by
  refine ⟨fun k => mem_keysOf_deepMerge overlay base k, ?_, ?_, ?_, ?_⟩
  · intro k t s hb ht hs
    exact lookupA_deepMerge_objobj overlay base k s t hn hb hs ht
  · intro k sv hb hs hnb
    exact lookupA_deepMerge_replace overlay base k sv hn hb hs hnb
  · simp [deepMerge, setKey, lookupA, blockedKey]
  · simp [deepMerge, setKey, lookupA, blockedKey]

theorem deepMerge_result_guarantee_witness :
    KeysNodup ([("sidebar", JVal.obj [("badge", JVal.str "new")]),
        ("draft", JVal.bool true)] : Fields) ∧
    (("draft" : String) ∈ keysOf (deepMerge
        [("a", JVal.num 1), ("sidebar", JVal.obj [("order", JVal.num 1)])]
        [("sidebar", JVal.obj [("badge", JVal.str "new")]),
          ("draft", JVal.bool true)])
      ↔ ("draft" : String) ∈ keysOf
          ([("a", JVal.num 1),
            ("sidebar", JVal.obj [("order", JVal.num 1)])] : Fields)
        ∨ (("draft" : String) ∈ keysOf
            ([("sidebar", JVal.obj [("badge", JVal.str "new")]),
              ("draft", JVal.bool true)] : Fields)
          ∧ ¬ blockedKey "draft" = true)) :=
  ⟨by decide,
    (deepMerge_result_guarantee
      [("a", JVal.num 1), ("sidebar", JVal.obj [("order", JVal.num 1)])]
      [("sidebar", JVal.obj [("badge", JVal.str "new")]),
        ("draft", JVal.bool true)] (by decide)).1 "draft"⟩

/-- C2 counterexample: the claim says the merge result never contains a
blocked key, even when it comes from the first argument; but the JS
spread copies the base record's own keys without filtering, so a base
record that owns a `__proto__` key keeps it in the result. -/
theorem deepMerge_blocked_from_base_counterexample :
    ("__proto__" : String) ∈ keysOf (deepMerge [("__proto__", JVal.num 1)] []) := by
  rw [deepMerge_nil]
  simp [keysOf]

/-- C2 amended: the merge result contains a blocked key at top level iff
the base record does — blocked keys are never copied from the overlay's
own key iteration, while blocked keys already present in the base
survive the initial spread. -/
theorem deepMerge_blocked_key_iff_base (A B : Fields) (k : String)
    (hb : blockedKey k = true) :
    k ∈ keysOf (deepMerge A B) ↔ k ∈ keysOf A := by
  rw [mem_keysOf_deepMerge]
  constructor
  · rintro (h | ⟨_, hnb⟩)
    · exact h
    · exact absurd hb hnb
  · exact Or.inl

theorem deepMerge_blocked_key_iff_base_witness :
    blockedKey "__proto__" = true ∧
    (("__proto__" : String) ∈ keysOf (deepMerge []
        [("__proto__", JVal.obj [("polluted", JVal.bool true)])])
      ↔ ("__proto__" : String) ∈ keysOf ([] : Fields)) :=
  ⟨by decide,
    deepMerge_blocked_key_iff_base []
      [("__proto__", JVal.obj [("polluted", JVal.bool true)])] "__proto__"
      (by decide)⟩

/-- C3: re-applying the same overlay is idempotent:
`deepMerge (deepMerge A B) B` is structurally equal to
`deepMerge A B` for well-formed records. -/
theorem deepMerge_overlay_idempotent (A B : Fields)
    (ha : wfFields A = true) (hb : wfFields B = true) :
    deepMerge (deepMerge A B) B = deepMerge A B :=
  deepMerge_idem A B ha hb

theorem deepMerge_overlay_idempotent_witness :
    wfFields [("a", JVal.num 1), ("s", JVal.obj [("x", JVal.num 2)])] = true ∧
    wfFields [("s", JVal.obj [("y", JVal.arr [JVal.str "v"])]),
        ("t", JVal.null)] = true ∧
    deepMerge
        (deepMerge [("a", JVal.num 1), ("s", JVal.obj [("x", JVal.num 2)])]
          [("s", JVal.obj [("y", JVal.arr [JVal.str "v"])]), ("t", JVal.null)])
        [("s", JVal.obj [("y", JVal.arr [JVal.str "v"])]), ("t", JVal.null)]
      = deepMerge [("a", JVal.num 1), ("s", JVal.obj [("x", JVal.num 2)])]
          [("s", JVal.obj [("y", JVal.arr [JVal.str "v"])]), ("t", JVal.null)] :=
  ⟨by decide, by decide,
    deepMerge_overlay_idempotent
      [("a", JVal.num 1), ("s", JVal.obj [("x", JVal.num 2)])]
      [("s", JVal.obj [("y", JVal.arr [JVal.str "v"])]), ("t", JVal.null)]
      (by decide) (by decide)⟩

theorem setKey_of_not_mem {α : Type} (l : List (String × α)) (k : String)
    (v : α) (h : k ∉ keysOf l) : setKey l k v = l ++ [(k, v)] := by
  induction l with
  | nil => rfl
  | cons q rest ih =>
      have hq : ¬ q.1 = k := fun hc => h (by rw [keysOf_cons]; exact hc ▸ List.mem_cons_self _ _)
      have hr : k ∉ keysOf rest := fun hc => h (by rw [keysOf_cons]; exact List.mem_cons_of_mem _ hc)
      simp only [setKey, if_neg hq, List.cons_append]
      rw [ih hr]

theorem foldl_setKey_append {α : Type} (l acc : List (String × α))
    (h : KeysNodup (acc ++ l)) :
    l.foldl (fun m p => setKey m p.1 p.2) acc = acc ++ l := by
  induction l generalizing acc with
  | nil => simp
  | cons q rest ih =>
      obtain ⟨k, v⟩ := q
      have hk : k ∉ keysOf acc := by
        unfold KeysNodup at h
        simp only [List.map_append, List.map_cons] at h
        intro hc
        have := (List.nodup_append.mp h).2.2
        exact this hc (by simp)
      rw [List.foldl_cons]
      have hstep : setKey acc k v = acc ++ [(k, v)] := setKey_of_not_mem acc k v hk
      rw [hstep, ih (acc ++ [(k, v)]) (by simpa using h)]
      simp

theorem nodup_foldl_setKey {α : Type} (l acc : List (String × α))
    (h : KeysNodup acc) :
    KeysNodup (l.foldl (fun m p => setKey m p.1 p.2) acc) := by
  induction l generalizing acc with
  | nil => exact h
  | cons q rest ih =>
      rw [List.foldl_cons]
      exact ih _ (nodup_setKey acc q.1 q.2 h)

theorem flattenGo_nil (pfx : String) (acc : FMap) :
    flattenGo [] pfx acc = acc := by
  simp [flattenGo]

theorem flattenGo_cons_skip (k : String) (v : JVal) (rest : Fields)
    (pfx : String) (acc : FMap) (h : ∀ f, v ≠ JVal.obj f) :
    flattenGo ((k, v) :: rest) pfx acc = flattenGo rest pfx acc := by
  rw [flattenGo.eq_def]
  rcases v with _ | _ | _ | _ | _ | f
  · rfl
  · rfl
  · rfl
  · rfl
  · rfl
  · exact absurd rfl (h f)

theorem flattenGo_cons_leaf (k : String) (fields : Fields) (rest : Fields)
    (pfx : String) (acc : FMap) (h : isContentFile k = true) :
    flattenGo ((k, JVal.obj fields) :: rest) pfx acc
      = flattenGo rest pfx (setKey acc (joinKey pfx k) fields) := by
  rw [flattenGo.eq_def]
  simp [h]

theorem flattenGo_cons_dir (k : String) (fields : Fields) (rest : Fields)
    (pfx : String) (acc : FMap) (h : isContentFile k = false) :
    flattenGo ((k, JVal.obj fields) :: rest) pfx acc
      = flattenGo rest pfx
          ((flattenGo fields (joinKey pfx k) []).foldl
            (fun m p => setKey m p.1 p.2) acc) := by
  rw [flattenGo.eq_def]
  simp [h]

theorem nodup_flattenGo :
    ∀ (n : Nat) (data : Fields) (pfx : String) (acc : FMap),
      sizeOf data ≤ n → KeysNodup acc → KeysNodup (flattenGo data pfx acc) := by
  intro n
  induction n with
  | zero =>
      intro data pfx acc hs _
      exfalso
      cases data <;> simp at hs
  | succ n ih =>
      intro data pfx acc hs hacc
      match data with
      | [] => rw [flattenGo_nil]; exact hacc
      | (k, v) :: rest =>
          by_cases hov : ∃ f, v = JVal.obj f
          · obtain ⟨f, rfl⟩ := hov
            have hsr : sizeOf rest ≤ n := by simp at hs; omega
            have hsf : sizeOf f ≤ n := by simp at hs; omega
            by_cases hc : isContentFile k = true
            · rw [flattenGo_cons_leaf k f rest pfx acc hc]
              exact ih rest pfx _ hsr (nodup_setKey acc _ f hacc)
            · rw [flattenGo_cons_dir k f rest pfx acc
                (Bool.eq_false_iff.mpr hc)]
              refine ih rest pfx _ hsr ?_
              exact nodup_foldl_setKey _ acc hacc
          · rw [flattenGo_cons_skip k v rest pfx acc
                (fun f hf => hov ⟨f, hf⟩)]
            have hsr : sizeOf rest ≤ n := by
              cases v <;> simp at hs <;> omega
            exact ih rest pfx acc hsr hacc

theorem combineGo_nil (m : FMap) : combineGo m [] = m := rfl

theorem combineGo_lookup_src_none (src : List (String × Fields)) (m : FMap)
    (p : String) (h : lookupA src p = none) :
    lookupA (combineGo m src) p = lookupA m p := by
  induction src generalizing m with
  | nil => rfl
  | cons q rest ih =>
      obtain ⟨k0, dv⟩ := q
      have hk0 : ¬ k0 = p := by
        intro hc
        simp [lookupA, hc] at h
      have hr : lookupA rest p = none := by
        simpa [lookupA, hk0] using h
      rcases hm : lookupA m k0 with _ | cv
      · simp only [combineGo, hm]
        rw [ih _ hr, lookupA_setKey_ne m k0 p dv (fun hc => hk0 hc.symm)]
      · simp only [combineGo, hm]
        rw [ih _ hr,
          lookupA_setKey_ne m k0 p (deepMerge cv dv) (fun hc => hk0 hc.symm)]

theorem combineGo_lookup_src_some (src : List (String × Fields)) (m : FMap)
    (p : String) (dv : Fields) (hn : KeysNodup src)
    (h : lookupA src p = some dv) :
    lookupA (combineGo m src) p
      = match lookupA m p with
        | some cv => some (deepMerge cv dv)
        | none => some dv := by
  induction src generalizing m with
  | nil => exact Option.noConfusion h
  | cons q rest ih =>
      obtain ⟨k0, dv0⟩ := q
      have hn2 : KeysNodup rest := by
        unfold KeysNodup at hn ⊢
        simp only [List.map_cons, List.nodup_cons] at hn
        exact hn.2
      by_cases hk0 : k0 = p
      · subst hk0
        have hdv : dv0 = dv := by simpa [lookupA] using h
        subst hdv
        have hrest : lookupA rest k0 = none := by
          rw [lookupA_eq_none_iff]
          unfold KeysNodup at hn
          simp only [List.map_cons, List.nodup_cons] at hn
          exact hn.1
        rcases hm : lookupA m k0 with _ | cv
        · simp only [combineGo, hm]
          rw [combineGo_lookup_src_none rest _ k0 hrest, lookupA_setKey_self]
        · simp only [combineGo, hm]
          rw [combineGo_lookup_src_none rest _ k0 hrest, lookupA_setKey_self]
      · have hr : lookupA rest p = some dv := by
          simpa [lookupA, hk0] using h
        rcases hm : lookupA m k0 with _ | cv
        · simp only [combineGo, hm]
          rw [ih _ hn2 hr,
            lookupA_setKey_ne m k0 p dv0 (fun hc => hk0 hc.symm)]
        · simp only [combineGo, hm]
          rw [ih _ hn2 hr,
            lookupA_setKey_ne m k0 p (deepMerge cv dv0) (fun hc => hk0 hc.symm)]

theorem joinKey_inj (relDir q k : String) (h : joinKey relDir q = joinKey relDir k) :
    q = k := by
  unfold joinKey at h
  by_cases hp : relDir = ""
  · simpa [hp] using h
  · rw [if_neg hp, if_neg hp] at h
    have hd : (relDir ++ "/").data ++ q.data = (relDir ++ "/").data ++ k.data := by
      have := congrArg String.data h
      simpa using this
    exact String.ext (List.append_cancel_left hd)

theorem discoverDocGo_append (relDir : String) (data : Fields) :
    ∀ acc : FMap, KeysNodup data →
      (∀ q, q ∈ keysOf data → joinKey relDir q ∉ keysOf acc) →
      discoverDocGo relDir data acc
        = acc ++ data.filterMap (fun p =>
            match p.2 with
            | JVal.obj f => some (joinKey relDir p.1, f)
            | _ => none) := by
  induction data with
  | nil => intro acc _ _; simp [discoverDocGo]
  | cons q rest ih =>
      intro acc hn hdisj
      obtain ⟨k, v⟩ := q
      have hn2 : KeysNodup rest := by
        unfold KeysNodup at hn ⊢
        simp only [List.map_cons, List.nodup_cons] at hn
        exact hn.2
      have hknotin : k ∉ keysOf rest := by
        unfold KeysNodup at hn
        simp only [List.map_cons, List.nodup_cons] at hn
        exact hn.1
      by_cases hov : ∃ f, v = JVal.obj f
      · obtain ⟨f, rfl⟩ := hov
        simp only [discoverDocGo]
        have hnew : joinKey relDir k ∉ keysOf acc :=
          hdisj k (by rw [keysOf_cons]; exact List.mem_cons_self _ _)
        rw [setKey_of_not_mem acc (joinKey relDir k) f hnew]
        rw [ih (acc ++ [(joinKey relDir k, f)]) hn2 ?_]
        · simp [List.filterMap_cons]
        · intro q hq
          simp only [keysOf, List.map_append, List.mem_append]
          rintro (hin | hin)
          · exact hdisj q (by rw [keysOf_cons]; exact List.mem_cons_of_mem _ hq) hin
          · simp only [keysOf, List.map_cons, List.map_nil, List.mem_singleton] at hin
            exact hknotin (joinKey_inj relDir q k hin ▸ hq)
      · have hskip : discoverDocGo relDir ((k, v) :: rest) acc
            = discoverDocGo relDir rest acc := by
          rcases v with _ | _ | _ | _ | _ | f
          · rfl
          · rfl
          · rfl
          · rfl
          · rfl
          · exact absurd ⟨f, rfl⟩ hov
        rw [hskip, ih acc hn2
          (fun q hq => hdisj q (by rw [keysOf_cons]; exact List.mem_cons_of_mem _ hq))]
        have hfm : (List.filterMap (fun p =>
            match p.2 with
            | JVal.obj f => some (joinKey relDir p.1, f)
            | _ => none) ((k, v) :: rest))
            = List.filterMap (fun p =>
            match p.2 with
            | JVal.obj f => some (joinKey relDir p.1, f)
            | _ => none) rest := by
          rw [List.filterMap_cons]
          rcases v with _ | _ | _ | _ | _ | f
          · rfl
          · rfl
          · rfl
          · rfl
          · rfl
          · exact absurd ⟨f, rfl⟩ hov
        rw [hfm]

/-- C7: flattening the hierarchical centralized document with key
`guides` containing leaf key `installation.md` and flattening the flat
document with single key `guides/installation.md` produce identical
mapping entries for every value; in general a key is a leaf iff its
extension is `.md`, `.mdx` or `.mdoc` (at any prefix depth a leaf
record-valued key yields a terminal entry and a non-leaf record-valued
key is recursed into with the key appended to the path, while non-record
values are skipped). -/
theorem flattenToMap_leaf_iff_extension :
    (∀ v : JVal,
        flattenToMap [("guides", JVal.obj [("installation.md", v)])] ""
          = flattenToMap [("guides/installation.md", v)] "") ∧
    (∀ (pfx k : String) (fields : Fields), isContentFile k = true →
        flattenToMap [(k, JVal.obj fields)] pfx = [(joinKey pfx k, fields)]) ∧
    (∀ (pfx k : String) (fields : Fields), isContentFile k = false →
        flattenToMap [(k, JVal.obj fields)] pfx
          = flattenToMap fields (joinKey pfx k)) ∧
    (∀ (pfx k : String) (v : JVal), (∀ f, v ≠ JVal.obj f) →
        flattenToMap [(k, v)] pfx = []) ∧
    isContentFile "installation.md" = true ∧
    isContentFile "guides/installation.md" = true ∧
    isContentFile "guides" = false := by
  have hleaf : ∀ (pfx k : String) (fields : Fields), isContentFile k = true →
      flattenToMap [(k, JVal.obj fields)] pfx = [(joinKey pfx k, fields)] := by
    intro pfx k fields h
    unfold flattenToMap
    rw [flattenGo_cons_leaf k fields [] pfx [] h, flattenGo_nil]
    rfl
  have hdir : ∀ (pfx k : String) (fields : Fields), isContentFile k = false →
      flattenToMap [(k, JVal.obj fields)] pfx
        = flattenToMap fields (joinKey pfx k) := by
    intro pfx k fields h
    unfold flattenToMap
    rw [flattenGo_cons_dir k fields [] pfx [] h, flattenGo_nil]
    exact foldl_setKey_append _ []
      (by
        have := nodup_flattenGo (sizeOf fields) fields (joinKey pfx k) []
          le_rfl (by simp [KeysNodup])
        simpa using this)
  have hskip : ∀ (pfx k : String) (v : JVal), (∀ f, v ≠ JVal.obj f) →
      flattenToMap [(k, v)] pfx = [] := by
    intro pfx k v h
    unfold flattenToMap
    rw [flattenGo_cons_skip k v [] pfx [] h, flattenGo_nil]
  have h1 : isContentFile "installation.md" = true := by decide
  have h2 : isContentFile "guides/installation.md" = true := by decide
  have h3 : isContentFile "guides" = false := by decide
  refine ⟨?_, hleaf, hdir, hskip, h1, h2, h3⟩
  intro v
  by_cases hov : ∃ f, v = JVal.obj f
  · obtain ⟨f, rfl⟩ := hov
    rw [hdir "" "guides" [("installation.md", JVal.obj f)] h3,
      hleaf (joinKey "" "guides") "installation.md" f h1,
      hleaf "" "guides/installation.md" f h2]
    have : joinKey (joinKey "" "guides") "installation.md"
        = joinKey "" "guides/installation.md" := by decide
    rw [this]
  · rw [hskip "" "guides/installation.md" v (fun f hf => hov ⟨f, hf⟩),
      hdir "" "guides" [("installation.md", v)] h3,
      hskip (joinKey "" "guides") "installation.md" v (fun f hf => hov ⟨f, hf⟩)]

theorem flattenToMap_leaf_iff_extension_witness :
    isContentFile "overview.mdx" = true ∧
    flattenToMap [("overview.mdx", JVal.obj [("title", JVal.str "O")])] "docs"
      = [(joinKey "docs" "overview.mdx", [("title", JVal.str "O")])] :=
  ⟨by decide,
    (flattenToMap_leaf_iff_extension).2.1 "docs" "overview.mdx"
      [("title", JVal.str "O")] (by decide)⟩

/-- C8: in the combined authoritative mapping, a path present in both
sources holds the per-key deep merge with the directory-local record as
overlay; a path present in exactly one source passes through unchanged;
a path in neither is absent.  Determinism holds because the combination
is a pure function of the two maps. -/
theorem loadFrontmatterCombine_spec (central perDir : FMap)
    (hn : KeysNodup perDir) :
    (∀ p c d, lookupA central p = some c → lookupA perDir p = some d →
        lookupA (loadFrontmatterCombine central perDir) p
          = some (deepMerge c d)) ∧
    (∀ p c, lookupA central p = some c → lookupA perDir p = none →
        lookupA (loadFrontmatterCombine central perDir) p = some c) ∧
    (∀ p d, lookupA central p = none → lookupA perDir p = some d →
        lookupA (loadFrontmatterCombine central perDir) p = some d) ∧
    (∀ p, lookupA central p = none → lookupA perDir p = none →
        lookupA (loadFrontmatterCombine central perDir) p = none) := by
  refine ⟨?_, ?_, ?_, ?_⟩
  · intro p c d hc hd
    unfold loadFrontmatterCombine
    rw [combineGo_lookup_src_some perDir central p d hn hd, hc]
  · intro p c hc hd
    unfold loadFrontmatterCombine
    rw [combineGo_lookup_src_none perDir central p hd, hc]
  · intro p d hc hd
    unfold loadFrontmatterCombine
    rw [combineGo_lookup_src_some perDir central p d hn hd, hc]
  · intro p hc hd
    unfold loadFrontmatterCombine
    rw [combineGo_lookup_src_none perDir central p hd, hc]

theorem loadFrontmatterCombine_spec_witness :
    KeysNodup ([("a.md", [("order", JVal.num 2)])] : FMap) ∧
    lookupA (loadFrontmatterCombine
        [("a.md", [("title", JVal.str "T"), ("order", JVal.num 1)])]
        [("a.md", [("order", JVal.num 2)])]) "a.md"
      = some (deepMerge [("title", JVal.str "T"), ("order", JVal.num 1)]
          [("order", JVal.num 2)]) :=
  ⟨by decide,
    (loadFrontmatterCombine_spec
        [("a.md", [("title", JVal.str "T"), ("order", JVal.num 1)])]
        [("a.md", [("order", JVal.num 2)])] (by decide)).1
      "a.md" [("title", JVal.str "T"), ("order", JVal.num 1)]
      [("order", JVal.num 2)] rfl rfl⟩

/-- C9: parsing a metadata source document errors iff the file exists
but its content fails to parse under the grammar selected by the
extension, the error message names the offending file path, and a
missing file yields the empty structure without error. -/
theorem parseCentralFile_error_spec (fs : String → Option String)
    (pj py : String → Except String JVal) (path : String) :
    (fs path = none →
        parseCentralFileM fs pj py path = Except.ok (JVal.obj [])) ∧
    (∀ c, fs path = some c →
        isOkE (parseCentralFileM fs pj py path)
          = isOkE (if strEndsWith path ".json" = true then pj c else py c)) ∧
    (∀ e, parseCentralFileM fs pj py path = Except.error e →
        ∃ m, e = "Failed to parse " ++ path ++ ": " ++ m) := by
  refine ⟨?_, ?_, ?_⟩
  · intro h
    unfold parseCentralFileM
    rw [h]
  · intro c h
    simp only [parseCentralFileM, h, parseDataFileM]
    by_cases hj : strEndsWith path ".json" = true
    · rw [if_pos hj, if_pos hj]
      rcases hpj : pj c with m | v <;> simp [isOkE]
    · rw [if_neg hj, if_neg hj]
      rcases hpy : py c with m | v
      · simp [isOkE]
      · rcases v <;> simp [isOkE]
  · intro e h
    rcases hf : fs path with _ | c
    · simp only [parseCentralFileM, hf] at h
      exact Except.noConfusion h
    · simp only [parseCentralFileM, hf, parseDataFileM] at h
      by_cases hj : strEndsWith path ".json" = true
      · rw [if_pos hj] at h
        rcases hpj : pj c with m | v
        · rw [hpj] at h
          exact ⟨m, (Except.error.inj h).symm⟩
        · rw [hpj] at h
          exact Except.noConfusion h
      · rw [if_neg hj] at h
        rcases hpy : py c with m | v
        · rw [hpy] at h
          exact ⟨m, (Except.error.inj h).symm⟩
        · rw [hpy] at h
          rcases v <;> exact Except.noConfusion h

theorem parseCentralFile_error_spec_witness :
    ((fun p => if p = "frontmatter.yml" then some ": bad" else none)
        "missing.yml" = none) ∧
    parseCentralFileM
        (fun p => if p = "frontmatter.yml" then some ": bad" else none)
        (fun _ => Except.error "json boom")
        (fun _ => Except.error "yaml boom") "missing.yml"
      = Except.ok (JVal.obj []) ∧
    (∃ m, ("Failed to parse frontmatter.yml: yaml boom" : String)
        = "Failed to parse " ++ "frontmatter.yml" ++ ": " ++ m) :=
  ⟨rfl,
    (parseCentralFile_error_spec
      (fun p => if p = "frontmatter.yml" then some ": bad" else none)
      (fun _ => Except.error "json boom")
      (fun _ => Except.error "yaml boom") "missing.yml").1 rfl,
    (parseCentralFile_error_spec
      (fun p => if p = "frontmatter.yml" then some ": bad" else none)
      (fun _ => Except.error "json boom")
      (fun _ => Except.error "yaml boom") "frontmatter.yml").2.2
      "Failed to parse frontmatter.yml: yaml boom" rfl⟩

/-- C10: per-directory document keys are never filtered by the content
extension set: every top-level record-valued key yields an entry (the
key prefixed with the directory path relative to the base, unprefixed at
the root), even for keys such as `notes.txt` that the central flattener
would not accept as leaves; scalar, array and null values are skipped
without error. -/
theorem discoverPerDirFiles_records_spec :
    (∀ (relDir : String) (data : Fields), KeysNodup data →
        discoverPerDirFiles [(relDir, data)]
          = data.filterMap (fun p =>
              match p.2 with
              | JVal.obj f => some (joinKey relDir p.1, f)
              | _ => none)) ∧
    (∀ (relDir k : String) (f : Fields),
        discoverPerDirFiles [(relDir, [(k, JVal.obj f)])]
          = [(joinKey relDir k, f)]) ∧
    (∀ (k : String) (f : Fields),
        discoverPerDirFiles [("", [(k, JVal.obj f)])] = [(k, f)]) ∧
    (∀ (relDir k : String) (v : JVal), (∀ f, v ≠ JVal.obj f) →
        discoverPerDirFiles [(relDir, [(k, v)])] = []) ∧
    isContentFile "notes.txt" = false ∧
    discoverPerDirFiles [("docs", [("notes.txt", JVal.obj [])])]
      = [("docs/notes.txt", [])] := by
  have hone : ∀ (relDir : String) (data : Fields), KeysNodup data →
      discoverPerDirFiles [(relDir, data)]
        = data.filterMap (fun p =>
            match p.2 with
            | JVal.obj f => some (joinKey relDir p.1, f)
            | _ => none) := by
    intro relDir data hn
    unfold discoverPerDirFiles
    rw [List.foldl_cons, List.foldl_nil]
    have := discoverDocGo_append relDir data [] hn
      (by intro q _ hc; simp [keysOf] at hc)
    simpa using this
  refine ⟨hone, ?_, ?_, ?_, by decide, ?_⟩
  · intro relDir k f
    rw [hone relDir [(k, JVal.obj f)] (by simp [KeysNodup])]
    rfl
  · intro k f
    rw [hone "" [(k, JVal.obj f)] (by simp [KeysNodup])]
    simp [joinKey]
  · intro relDir k v h
    rw [hone relDir [(k, v)] (by simp [KeysNodup])]
    rcases v with _ | _ | _ | _ | _ | f
    · rfl
    · rfl
    · rfl
    · rfl
    · rfl
    · exact absurd rfl (h f)
  · rw [hone "docs" [("notes.txt", JVal.obj [])] (by simp [KeysNodup])]
    rfl

theorem discoverPerDirFiles_records_spec_witness :
    KeysNodup ([("notes.txt", JVal.obj [("a", JVal.num 1)]),
        ("n", JVal.num 7)] : Fields) ∧
    discoverPerDirFiles [("guides",
        [("notes.txt", JVal.obj [("a", JVal.num 1)]), ("n", JVal.num 7)])]
      = [("guides/notes.txt", [("a", JVal.num 1)])] :=
  ⟨by decide,
    by
      rw [(discoverPerDirFiles_records_spec).1 "guides"
        [("notes.txt", JVal.obj [("a", JVal.num 1)]), ("n", JVal.num 7)]
        (by decide)]
      rfl⟩

/-- C4: evaluation of the `store.set` wrapper at the buried-heading
record of the loader test suite.  `extractH1` finds no leading heading
in the raw body (the level-1 heading is buried after prose), and the
body is forwarded unchanged — yet the wrapper still removes the first
level-1 element from the rendered HTML and drops the first depth-1 entry
from the headings list, because lines 96-103 of the wrapper run
unconditionally instead of being gated on the `extractH1` result.  This
contradicts the spec's guard and the repository's own test
(`does not strip H1 from rendered HTML when H1 is not first content`). -/
theorem storeSetWrap_strips_unconditionally :
    extractH1 "Some intro text.\n\n# Buried Heading\n\nMore content." = none ∧
    (storeSetWrap (EntryE.mk "buried-h1" [("title", JVal.str "Has Buried H1")]
        (some "Some intro text.\n\n# Buried Heading\n\nMore content.")
        (some (RenderedE.mk
          "<p>Some intro text.</p>\n<h1>Buried Heading</h1>\n<p>More content.</p>"
          (some (MetaE.mk (some [HeadingE.mk 1 "buried-heading" "Buried Heading"]))))))).body
      = some "Some intro text.\n\n# Buried Heading\n\nMore content." ∧
    (storeSetWrap (EntryE.mk "buried-h1" [("title", JVal.str "Has Buried H1")]
        (some "Some intro text.\n\n# Buried Heading\n\nMore content.")
        (some (RenderedE.mk
          "<p>Some intro text.</p>\n<h1>Buried Heading</h1>\n<p>More content.</p>"
          (some (MetaE.mk (some [HeadingE.mk 1 "buried-heading" "Buried Heading"]))))))).rendered
      = some (RenderedE.mk "<p>Some intro text.</p>\n<p>More content.</p>"
          (some (MetaE.mk (some [])))) := by
  refine ⟨by decide, by decide, by decide⟩

/-- C5 counterexample: the claim says an explicitly empty `title` string
is treated as already present and never overwritten, but the wrapper's
trigger is the JS falsy test on `merged.title`, and the empty string is
falsy: a file declaring an empty title and starting with a heading gets
the heading text as its title. -/
theorem parseData_empty_title_overwritten :
    deepMerge [] [("title", JVal.str "")] = [("title", JVal.str "")] ∧
    lookupA (parseDataWrapped [] "guide.md" (some "# Hello\n\nBody")
        [("title", JVal.str "")]) "title"
      = some (JVal.str "Hello") := by
  have hm : deepMerge [] [("title", JVal.str "")] = [("title", JVal.str "")] := by
    simp [deepMerge, setKey, lookupA, blockedKey]
  refine ⟨hm, ?_⟩
  have hh : extractH1 (String.mk (fenceBody ("# Hello\n\nBody" : String).data))
      = some ("Hello", "Body") := by decide
  simp only [parseDataWrapped, lookupA, Option.getD, hm, hh, truthyOpt]
  simp [setKey, lookupA]

/-- C5 amended: heading-derived title injection is triggered exactly
when the merged `title` is falsy in the JS sense (absent, null, false,
zero or the empty string); a truthy present value is never overwritten,
while a falsy one — including the explicitly empty string — is replaced
by the extracted heading text when the body yields one, and left alone
when the read fails or no heading is found. -/
theorem parseData_title_injection_on_falsy (fmMap : FMap) (relPath : String)
    (readResult : Option String) (declared : Fields) :
    (truthyOpt (lookupA (deepMerge ((lookupA fmMap relPath).getD []) declared)
          "title") = true →
        parseDataWrapped fmMap relPath readResult declared
          = deepMerge ((lookupA fmMap relPath).getD []) declared) ∧
    (truthyOpt (lookupA (deepMerge ((lookupA fmMap relPath).getD []) declared)
          "title") = false →
        readResult = none →
        parseDataWrapped fmMap relPath readResult declared
          = deepMerge ((lookupA fmMap relPath).getD []) declared) ∧
    (∀ raw, truthyOpt (lookupA (deepMerge ((lookupA fmMap relPath).getD [])
          declared) "title") = false →
        readResult = some raw →
        extractH1 (String.mk (fenceBody raw.data)) = none →
        parseDataWrapped fmMap relPath readResult declared
          = deepMerge ((lookupA fmMap relPath).getD []) declared) ∧
    (∀ raw t b, truthyOpt (lookupA (deepMerge ((lookupA fmMap relPath).getD [])
          declared) "title") = false →
        readResult = some raw →
        extractH1 (String.mk (fenceBody raw.data)) = some (t, b) →
        parseDataWrapped fmMap relPath readResult declared
          = setKey (deepMerge ((lookupA fmMap relPath).getD []) declared)
              "title" (JVal.str t)) := by
  refine ⟨?_, ?_, ?_, ?_⟩
  · intro ht
    simp only [parseDataWrapped, ht, if_true]
  · intro ht hr
    simp only [parseDataWrapped, ht, hr, Bool.false_eq_true, if_false]
  · intro raw ht hr hh
    simp only [parseDataWrapped, ht, hr, hh, Bool.false_eq_true, if_false]
  · intro raw t b ht hr hh
    simp only [parseDataWrapped, ht, hr, hh, Bool.false_eq_true, if_false]

theorem parseData_title_injection_on_falsy_witness :
    truthyOpt (lookupA (deepMerge ((lookupA ([] : FMap) "a.md").getD [])
        [("title", JVal.str "Explicit")]) "title") = true ∧
    parseDataWrapped [] "a.md" (some "# Heading\n\nBody")
        [("title", JVal.str "Explicit")]
      = deepMerge ((lookupA ([] : FMap) "a.md").getD [])
          [("title", JVal.str "Explicit")] :=
  ⟨by simp [deepMerge, setKey, lookupA, blockedKey, truthyOpt],
    (parseData_title_injection_on_falsy [] "a.md" (some "# Heading\n\nBody")
        [("title", JVal.str "Explicit")]).1
      (by simp [deepMerge, setKey, lookupA, blockedKey, truthyOpt])⟩

theorem dropWhile_head_false {p : Char → Bool} :
    ∀ (l t : List Char) (c : Char), l.dropWhile p = c :: t → p c = false := by
  intro l
  induction l with
  | nil => intro t c h; exact List.noConfusion h
  | cons x xs ih =>
      intro t c h
      by_cases hx : p x
      · rw [List.dropWhile_cons, if_pos hx] at h
        exact ih t c h
      · rw [List.dropWhile_cons, if_neg hx] at h
        obtain ⟨rfl, _⟩ := List.cons.injEq x xs c t ▸ h
        exact Bool.eq_false_iff.mpr hx

theorem mem_takeWhile_pred {p : Char → Bool} :
    ∀ (l : List Char) (c : Char), c ∈ l.takeWhile p → p c = true := by
  intro l
  induction l with
  | nil => intro c h; exact absurd h (List.not_mem_nil c)
  | cons x xs ih =>
      intro c h
      by_cases hx : p x
      · rw [List.takeWhile_cons, if_pos hx] at h
        rcases List.mem_cons.mp h with rfl | hm
        · exact hx
        · exact ih c hm
      · rw [List.takeWhile_cons, if_neg hx] at h
        exact absurd h (List.not_mem_nil c)

theorem takeWhile_eq_self_of_all {p : Char → Bool} (l : List Char)
    (h : ∀ c ∈ l, p c = true) : l.takeWhile p = l := by
  induction l with
  | nil => rfl
  | cons x xs ih =>
      rw [List.takeWhile_cons, if_pos (h x (List.mem_cons_self x xs))]
      rw [ih (fun c hc => h c (List.mem_cons_of_mem x hc))]

theorem linesOf_ne_nil (s : List Char) : linesOf s ≠ [] := by
  cases s with
  | nil => simp [linesOf]
  | cons c t =>
      by_cases hc : c = '\n'
      · simp [linesOf, hc]
      · simp only [linesOf, if_neg hc]
        rcases linesOf t with _ | ⟨h, r⟩
        · simp
        · simp

theorem joinLines_cons_head (c : Char) (h : List Char) (r : List (List Char)) :
    joinLines ((c :: h) :: r) = c :: joinLines (h :: r) := by
  cases r with
  | nil => rfl
  | cons x xs => simp [joinLines, List.cons_append]

theorem joinLines_nil_cons (r : List (List Char)) (hr : r ≠ []) :
    joinLines ([] :: r) = '\n' :: joinLines r := by
  cases r with
  | nil => exact absurd rfl hr
  | cons x xs => rfl

theorem linesOf_cons_nl (t : List Char) : linesOf ('\n' :: t) = [] :: linesOf t := by
  simp [linesOf]

theorem joinLines_linesOf (s : List Char) : joinLines (linesOf s) = s := by
  induction s with
  | nil => rfl
  | cons c t ih =>
      by_cases hc : c = '\n'
      · subst hc
        rw [linesOf_cons_nl, joinLines_nil_cons (linesOf t) (linesOf_ne_nil t), ih]
      · simp only [linesOf, if_neg hc]
        rcases hlt : linesOf t with _ | ⟨h, r⟩
        · exact absurd hlt (linesOf_ne_nil t)
        · rw [joinLines_cons_head, ← hlt, ih]

theorem linesOf_no_nl (s : List Char) (h : '\n' ∉ s) : linesOf s = [s] := by
  induction s with
  | nil => rfl
  | cons c t ih =>
      have hc : ¬ c = '\n' := fun hcc => h (hcc ▸ List.mem_cons_self c t)
      simp only [linesOf, if_neg hc]
      rw [ih (fun hm => h (List.mem_cons_of_mem c hm))]

theorem linesOf_append_nl (pre rest : List Char) (h : '\n' ∉ pre) :
    linesOf (pre ++ '\n' :: rest) = pre :: linesOf rest := by
  induction pre with
  | nil => simp [linesOf]
  | cons p ps ih =>
      have hp : ¬ p = '\n' := fun hc => h (hc ▸ List.mem_cons_self p ps)
      have hih := ih (fun hm => h (List.mem_cons_of_mem p hm))
      rw [List.cons_append]
      simp only [linesOf, if_neg hp]
      rw [hih]

theorem linesOf_exists_head (s : List Char) :
    ∃ R, linesOf s = (s.takeWhile (fun c => ¬ (c = '\n'))) :: R := by
  induction s with
  | nil => exact ⟨[], rfl⟩
  | cons c t ih =>
      by_cases hc : c = '\n'
      · subst hc
        refine ⟨linesOf t, ?_⟩
        simp [linesOf, List.takeWhile_cons]
      · obtain ⟨R, hR⟩ := ih
        refine ⟨R, ?_⟩
        simp only [linesOf, if_neg hc, hR, List.takeWhile_cons]
        simp [hc]

theorem skipBlanksF_eq_self (f : Nat) (s : List Char)
    (h : ∀ rest, s.dropWhile wsNoNl ≠ '\n' :: rest) :
    skipBlanksF f s = s := by
  cases f with
  | zero => rfl
  | succ f =>
      simp only [skipBlanksF]

theorem skipBlanksF_congr :
    ∀ (n : Nat) (s : List Char) (f1 f2 : Nat), s.length ≤ n →
      s.length ≤ f1 → s.length ≤ f2 → skipBlanksF f1 s = skipBlanksF f2 s := by
  intro n
  induction n with
  | zero =>
      intro s f1 f2 hs _ _
      have : s = [] := List.length_eq_zero.mp (Nat.le_antisymm hs (Nat.zero_le _))
      subst this
      cases f1 <;> cases f2 <;> rfl
  | succ n ih =>
      intro s f1 f2 hs h1 h2
      rcases hd : s.dropWhile wsNoNl with _ | ⟨c, t⟩
      · rw [skipBlanksF_eq_self f1 s (by rw [hd]; intro rest hc; exact List.noConfusion hc),
          skipBlanksF_eq_self f2 s (by rw [hd]; intro rest hc; exact List.noConfusion hc)]
      · by_cases hc : c = '\n'
        · subst hc
          have hsplit : s = s.takeWhile wsNoNl ++ '\n' :: t := by
            rw [← hd, List.takeWhile_append_dropWhile]
          have hlen : t.length + 1 ≤ s.length := by
            rw [hsplit]; simp
          obtain ⟨g1, rfl⟩ : ∃ g1, f1 = g1 + 1 :=
            ⟨f1 - 1, by omega⟩
          obtain ⟨g2, rfl⟩ : ∃ g2, f2 = g2 + 1 :=
            ⟨f2 - 1, by omega⟩
          have hstep1 : skipBlanksF (g1 + 1) s = skipBlanksF g1 t := by
            simp [skipBlanksF, hd]
          have hstep2 : skipBlanksF (g2 + 1) s = skipBlanksF g2 t := by
            simp [skipBlanksF, hd]
          rw [hstep1, hstep2]
          exact ih t g1 g2 (by omega) (by omega) (by omega)
        · rw [skipBlanksF_eq_self f1 s
              (by rw [hd]; intro rest hcc
                  exact hc ((List.cons.injEq c t '\n' rest ▸ hcc).1)),
            skipBlanksF_eq_self f2 s
              (by rw [hd]; intro rest hcc
                  exact hc ((List.cons.injEq c t '\n' rest ▸ hcc).1))]

theorem skipBlanksF_fuel (f : Nat) (s : List Char) (h : s.length ≤ f) :
    skipBlanksF f s = skipBlanks s :=
  skipBlanksF_congr s.length s f s.length le_rfl h le_rfl

theorem skipBlanks_step (s t : List Char)
    (hd : s.dropWhile wsNoNl = '\n' :: t) :
    skipBlanks s = skipBlanks t := by
  have hsplit : s = s.takeWhile wsNoNl ++ '\n' :: t := by
    rw [← hd, List.takeWhile_append_dropWhile]
  have hlen : t.length + 1 ≤ s.length := by
    rw [hsplit]; simp
  have hlens : s.length = (s.length - 1) + 1 := by omega
  rw [skipBlanks, hlens]
  have hstep : skipBlanksF ((s.length - 1) + 1) s = skipBlanksF (s.length - 1) t := by
    simp [skipBlanksF, hd]
  rw [hstep]
  exact skipBlanksF_fuel (s.length - 1) t (by omega)

theorem goH1_none_of_head (x : Char) (t : List Char) (hx : ¬ x = '#') :
    goH1 (x :: t) = none := by
  cases t with
  | nil => simp [goH1]
  | cons c2 r => simp [goH1, hx]

theorem takeWhile_append_all (p : Char → Bool) (l1 l2 : List Char)
    (h : ∀ x ∈ l1, p x = true) :
    (l1 ++ l2).takeWhile p = l1 ++ l2.takeWhile p := by
  induction l1 with
  | nil => simp
  | cons x xs ih =>
      rw [List.cons_append, List.takeWhile_cons,
        if_pos (h x (List.mem_cons_self x xs)), List.cons_append,
        ih (fun y hy => h y (List.mem_cons_of_mem x hy))]

theorem isBlankLine_false_of_mem (l : List Char) (c : Char) (hm : c ∈ l)
    (hc : wsNoNl c = false) : isBlankLine l = false := by
  cases hb : isBlankLine l with
  | false => rfl
  | true =>
      have := List.all_eq_true.mp hb c hm
      rw [hc] at this
      exact Bool.noConfusion this

theorem specBody_linesOf_nil : specBody (linesOf []) = [] := rfl

theorem specBody_linesOf_nl (a2 : List Char) :
    specBody (linesOf ('\n' :: a2)) = a2 := by
  rw [linesOf_cons_nl]
  show specBody ([] :: linesOf a2) = a2
  rcases hla : linesOf a2 with _ | ⟨h, r⟩
  · exact absurd hla (linesOf_ne_nil a2)
  · show joinLines (h :: r) = a2
    rw [← hla]
    exact joinLines_linesOf a2

theorem specBody_linesOf_nonl (a1 : Char) (a2 : List Char)
    (h1 : ¬ a1 = '\n') : specBody (linesOf (a1 :: a2)) = a1 :: a2 := by
  simp only [linesOf, if_neg h1]
  rcases hla : linesOf a2 with _ | ⟨h, r⟩
  · exact absurd hla (linesOf_ne_nil a2)
  · show joinLines ((a1 :: h) :: r) = a1 :: a2
    have hj : joinLines (linesOf (a1 :: a2)) = a1 :: a2 :=
      joinLines_linesOf (a1 :: a2)
    rw [show linesOf (a1 :: a2) = (a1 :: h) :: r from by
      simp only [linesOf, if_neg h1, hla]] at hj
    exact hj

theorem lineTerm_eq_of_lfOnly (c : Char) (h : lfOnly c = true) :
    lineTerm c = decide (c = '\n') := by
  by_cases h1 : c = '\r'
  · subst h1; exact absurd h (by decide)
  by_cases h2 : c = Char.ofNat 0x2028
  · subst h2; exact absurd h (by decide)
  by_cases h3 : c = Char.ofNat 0x2029
  · subst h3; exact absurd h (by decide)
  simp [lineTerm, h1, h2, h3]

theorem takeWhile_dot_of_lfOnly :
    ∀ (l : List Char), (∀ c ∈ l, lfOnly c = true) →
      l.takeWhile (fun c => !lineTerm c)
        = l.takeWhile (fun x => ¬ (x = '\n')) := by
  intro l
  induction l with
  | nil => intro h0; rfl
  | cons x xs ih =>
      intro h
      have hx : (!lineTerm x) = decide (¬ (x = '\n')) := by
        rw [lineTerm_eq_of_lfOnly x (h x (List.mem_cons_self x xs)), decide_not]
      simp only [List.takeWhile_cons]
      rw [hx, ih (fun c hc => h c (List.mem_cons_of_mem x hc))]

theorem dropWhile_dot_of_lfOnly :
    ∀ (l : List Char), (∀ c ∈ l, lfOnly c = true) →
      l.dropWhile (fun c => !lineTerm c)
        = l.dropWhile (fun x => ¬ (x = '\n')) := by
  intro l
  induction l with
  | nil => intro h0; rfl
  | cons x xs ih =>
      intro h
      have hx : (!lineTerm x) = decide (¬ (x = '\n')) := by
        rw [lineTerm_eq_of_lfOnly x (h x (List.mem_cons_self x xs)), decide_not]
      simp only [List.dropWhile_cons]
      rw [hx, ih (fun c hc => h c (List.mem_cons_of_mem x hc))]

theorem goH1_line_spec (c : Char) (d' : List Char)
    (hcw : wsNoNl c = false) (hc : ¬ c = '\n')
    (hlf : ∀ x ∈ d', lfOnly x = true) :
    goH1 (c :: d')
      = (specGo (linesOf (c :: d'))).map (fun p => (p.1, specBody p.2)) := by
  by_cases hch : c = '#'
  · subst hch
    rcases d' with _ | ⟨c2, r⟩
    · have hln : linesOf ['#'] = [['#']] :=
        linesOf_no_nl ['#'] (by simp)
      rw [hln]
      simp [goH1, specGo, isBlankLine, wsNoNl, jsWs]
    · have hlfr : ∀ x ∈ r, lfOnly x = true :=
        fun x hx => hlf x (List.mem_cons_of_mem c2 hx)
      have hbr : r.takeWhile (fun c => !lineTerm c)
          = r.takeWhile (fun x => ¬ (x = '\n')) :=
        takeWhile_dot_of_lfOnly r hlfr
      have hbd : r.dropWhile (fun c => !lineTerm c)
          = r.dropWhile (fun x => ¬ (x = '\n')) :=
        dropWhile_dot_of_lfOnly r hlfr
      by_cases hsp : c2 = ' '
      · subst hsp
        by_cases htxt : r.takeWhile (fun x => ¬ (x = '\n')) = []
        · rcases hr : r with _ | ⟨r0, rr⟩
          · simp [goH1, specGo, isBlankLine, wsNoNl, jsWs]
          · subst hr
            have hr0 : r0 = '\n' := by
              rw [List.takeWhile_cons] at htxt
              by_cases h0 : r0 = '\n'
              · exact h0
              · rw [if_pos (by simpa using h0)] at htxt
                exact List.noConfusion htxt
            subst hr0
            have hlineq : linesOf ('#' :: ' ' :: '\n' :: rr)
                = ['#', ' '] :: linesOf rr := by
              have := linesOf_append_nl ['#', ' '] rr (by simp)
              simpa using this
            rw [hlineq]
            have hbl : isBlankLine ['#', ' '] = false :=
              isBlankLine_false_of_mem _ '#' (by simp) (by decide)
            simp [goH1, lineTerm, specGo, hbl]
        · rcases haf : r.dropWhile (fun x => ¬ (x = '\n')) with _ | ⟨a0, arest⟩
          · have hallr : ∀ x ∈ r, ¬ (x = '\n') := by
              intro x hx
              have := List.dropWhile_eq_nil_iff.mp haf x hx
              simpa using this
            have hnr : '\n' ∉ ('#' :: ' ' :: r) := by
              intro hm
              rcases List.mem_cons.mp hm with hm1 | hm
              · exact absurd hm1.symm (by decide)
              rcases List.mem_cons.mp hm with hm1 | hm
              · exact absurd hm1.symm (by decide)
              · exact hallr '\n' hm rfl
            have hln : linesOf ('#' :: ' ' :: r) = [('#' :: ' ' :: r)] :=
              linesOf_no_nl _ hnr
            have htk : r.takeWhile (fun x => ¬ (x = '\n')) = r :=
              takeWhile_eq_self_of_all r
                (fun x hx => by simpa using hallr x hx)
            have hrne : ¬ (r = []) := by
              intro hre
              apply htxt
              rw [hre]
              simp
            have hbl : isBlankLine ('#' :: ' ' :: r) = false :=
              isBlankLine_false_of_mem _ '#' (by simp) (by decide)
            rw [hln]
            have hgo : goH1 ('#' :: ' ' :: r) = some (r, []) := by
              simp only [goH1, hbr, hbd, htk, haf]
              rw [if_pos ⟨trivial, trivial⟩, if_neg hrne]
            have hspec : specGo [('#' :: ' ' :: r)] = some (r, []) := by
              simp [specGo, hbl, hrne]
            rw [hgo, hspec]
            rfl
          · have ha0 : a0 = '\n' := by
              have := dropWhile_head_false r arest a0 haf
              simpa using this
            subst ha0
            have hrsplit : r = r.takeWhile (fun x => ¬ (x = '\n'))
                ++ '\n' :: arest := by
              have h0 := (List.takeWhile_append_dropWhile
                (fun x : Char => decide (¬ (x = '\n'))) r).symm
              rw [haf] at h0
              exact h0
            have hnotnl : '\n' ∉ ('#' :: ' '
                :: r.takeWhile (fun x => ¬ (x = '\n'))) := by
              intro hm
              rcases List.mem_cons.mp hm with hm1 | hm
              · exact absurd hm1.symm (by decide)
              rcases List.mem_cons.mp hm with hm1 | hm
              · exact absurd hm1.symm (by decide)
              · have := mem_takeWhile_pred r '\n' hm
                simp at this
            have hlineq : linesOf ('#' :: ' ' :: r)
                = ('#' :: ' ' :: r.takeWhile (fun x => ¬ (x = '\n')))
                  :: linesOf arest := by
              conv_lhs => rw [show ('#' :: ' ' :: r)
                = ('#' :: ' ' :: r.takeWhile (fun x => ¬ (x = '\n')))
                  ++ '\n' :: arest from by
                    conv_lhs => rw [hrsplit]
                    simp [List.cons_append]]
              exact linesOf_append_nl _ _ hnotnl
            rw [hlineq]
            have hbl : isBlankLine
                ('#' :: ' ' :: r.takeWhile (fun x => ¬ (x = '\n'))) = false :=
              isBlankLine_false_of_mem _ '#' (by simp) (by decide)
            have hsp2 : specGo (('#' :: ' '
                  :: r.takeWhile (fun x => ¬ (x = '\n'))) :: linesOf arest)
                = some (r.takeWhile (fun x => ¬ (x = '\n')), linesOf arest) := by
              simp only [specGo, hbl, Bool.false_eq_true, if_false]
              rw [if_pos ⟨trivial, trivial, htxt⟩]
            rw [hsp2, Option.map_some']
            rcases arest with _ | ⟨a1, a2⟩
            · rw [specBody_linesOf_nil]
              simp only [goH1, hbr, hbd, haf]
              rw [if_pos ⟨trivial, trivial⟩, if_neg htxt]
            · by_cases h1 : a1 = '\n'
              · subst h1
                rw [specBody_linesOf_nl]
                simp only [goH1, hbr, hbd, haf]
                rw [if_pos ⟨trivial, trivial⟩, if_neg htxt]
              · rw [specBody_linesOf_nonl a1 a2 h1]
                simp only [goH1, hbr, hbd, haf]
                rw [if_pos ⟨trivial, trivial⟩, if_neg htxt]
                refine congrArg some (congrArg _ ?_)
                show (match (match '\n' :: a1 :: a2 with
                    | '\n' :: a => a
                    | a => a) with
                  | '\n' :: a => a
                  | a => a) = a1 :: a2
                show (match a1 :: a2 with
                  | '\n' :: a => a
                  | a => a) = a1 :: a2
                split
                · rename_i ax heq
                  exact absurd ((List.cons.injEq a1 a2 '\n' ax ▸ heq).1) h1
                · rfl
      · by_cases h2n : c2 = '\n'
        · subst h2n
          have hlineq : linesOf ('#' :: '\n' :: r) = ['#'] :: linesOf r := by
            have := linesOf_append_nl ['#'] r (by simp)
            simpa using this
          rw [hlineq]
          have hbl : isBlankLine ['#'] = false :=
            isBlankLine_false_of_mem _ '#' (by simp) (by decide)
          simp [goH1, specGo, hbl]
        · obtain ⟨R, hR⟩ := linesOf_exists_head ('#' :: c2 :: r)
          have hhead : ('#' :: c2 :: r).takeWhile (fun x => ¬ (x = '\n'))
              = '#' :: c2 :: r.takeWhile (fun x => ¬ (x = '\n')) := by
            simp [List.takeWhile_cons, h2n]
          rw [hR, hhead]
          have hbl : isBlankLine
              ('#' :: c2 :: List.takeWhile (fun x => !decide (x = '\n')) r)
              = false :=
            isBlankLine_false_of_mem _ '#' (by simp) (by decide)
          simp [goH1, specGo, hbl, hsp]
  · rw [goH1_none_of_head c d' hch]
    obtain ⟨R, hR⟩ := linesOf_exists_head (c :: d')
    have hhead : (c :: d').takeWhile (fun x => ¬ (x = '\n'))
        = c :: d'.takeWhile (fun x => ¬ (x = '\n')) := by
      simp [List.takeWhile_cons, hc]
    rw [hR, hhead]
    rcases htk : d'.takeWhile (fun x => ¬ (x = '\n')) with _ | ⟨y, ys⟩
    · have hbl : isBlankLine [c] = false :=
        isBlankLine_false_of_mem _ c (by simp) hcw
      simp [specGo, hbl]
    · have hbl : isBlankLine (c :: y :: ys) = false :=
        isBlankLine_false_of_mem _ c (by simp) hcw
      simp [specGo, hbl, hch]

theorem specGo_cons_none (L : List Char) (R : List (List Char))
    (hbl : isBlankLine L = false) (hne : ∀ t, L ≠ '#' :: t) :
    specGo (L :: R) = none := by
  simp only [specGo, hbl, Bool.false_eq_true, if_false]
  rcases L with _ | ⟨c1, L1⟩
  · rfl
  rcases L1 with _ | ⟨c2, L2⟩
  · rfl
  · show (if c1 = '#' ∧ c2 = ' ' ∧ ¬ (L2 = []) then some (L2, R) else none)
      = none
    rw [if_neg]
    intro hcond
    exact hne (c2 :: L2) (by rw [hcond.1])

theorem goH1_skip_spec_aux :
    ∀ (n : Nat) (s : List Char), s.length ≤ n →
      (∀ x ∈ s, lfOnly x = true) →
      goH1 (skipBlanks s)
        = (specGo (linesOf s)).map (fun p => (p.1, specBody p.2)) := by
  intro n
  induction n with
  | zero =>
      intro s hs hlf
      have hnil : s = [] :=
        List.length_eq_zero.mp (Nat.le_antisymm hs (Nat.zero_le _))
      subst hnil
      rfl
  | succ n ih =>
      intro s hs hlf
      rcases hd : s.dropWhile wsNoNl with _ | ⟨c, t⟩
      · have hall : ∀ x ∈ s, wsNoNl x = true := by
          intro x hx
          have := List.dropWhile_eq_nil_iff.mp hd x hx
          simpa using this
        have hself : skipBlanks s = s :=
          skipBlanksF_eq_self s.length s
            (by rw [hd]; intro rest hcc; exact List.noConfusion hcc)
        have hnl : '\n' ∉ s := by
          intro hm
          exact absurd (hall '\n' hm) (by decide)
        have hbl : isBlankLine s = true := by
          simp only [isBlankLine, List.all_eq_true]
          intro x hx
          simpa using hall x hx
        have hnone : goH1 s = none := by
          rcases s with _ | ⟨w1, s1⟩
          · rfl
          rcases s1 with _ | ⟨w2, s2⟩
          · rfl
          · refine goH1_none_of_head w1 (w2 :: s2) ?_
            intro he
            subst he
            exact absurd (hall '#' (List.mem_cons_self _ _)) (by decide)
        rw [hself, hnone, linesOf_no_nl s hnl,
          show specGo [s] = none from by simp [specGo, hbl]]
        rfl
      · by_cases hc : c = '\n'
        · subst hc
          have hstep := skipBlanks_step s t hd
          have hsplit : s = s.takeWhile wsNoNl ++ '\n' :: t := by
            rw [← hd, List.takeWhile_append_dropWhile]
          have hnlpre : '\n' ∉ s.takeWhile wsNoNl := by
            intro hm
            exact absurd (mem_takeWhile_pred s '\n' hm) (by decide)
          have hlineq : linesOf s = (s.takeWhile wsNoNl) :: linesOf t := by
            conv_lhs => rw [hsplit]
            exact linesOf_append_nl _ _ hnlpre
          have hbl : isBlankLine (s.takeWhile wsNoNl) = true := by
            simp only [isBlankLine, List.all_eq_true]
            intro x hx
            simpa using mem_takeWhile_pred s x hx
          have hlen : t.length ≤ n := by
            have : t.length + 1 ≤ s.length := by
              conv_rhs => rw [hsplit]
              simp
            omega
          have hlft : ∀ x ∈ t, lfOnly x = true := by
            intro x hx
            apply hlf
            rw [hsplit]
            exact List.mem_append_right _ (List.mem_cons_of_mem _ hx)
          rw [hstep, hlineq, ih t hlen hlft]
          rcases hlt : linesOf t with _ | ⟨L, R⟩
          · exact absurd hlt (linesOf_ne_nil t)
          · rw [show specGo ((s.takeWhile wsNoNl) :: L :: R) = specGo (L :: R)
              from by simp [specGo, hbl]]
        · have hcf : wsNoNl c = false := dropWhile_head_false s t c hd
          have hself : skipBlanks s = s :=
            skipBlanksF_eq_self s.length s
              (by rw [hd]; intro rest hcc
                  exact hc ((List.cons.injEq c t '\n' rest ▸ hcc).1))
          rw [hself]
          have hsplit : s = s.takeWhile wsNoNl ++ c :: t := by
            rw [← hd, List.takeWhile_append_dropWhile]
          rcases hpre : s.takeWhile wsNoNl with _ | ⟨w, pw⟩
          · have hseq : s = c :: t := by
              have h0 := hsplit
              rw [hpre] at h0
              simpa using h0
            have hlft : ∀ x ∈ t, lfOnly x = true := by
              intro x hx
              apply hlf
              rw [hseq]
              exact List.mem_cons_of_mem c hx
            rw [hseq]
            exact goH1_line_spec c t hcf hc hlft
          · have hseq : s = w :: (pw ++ c :: t) := by
              have h0 := hsplit
              rw [hpre] at h0
              simpa using h0
            have hw : wsNoNl w = true :=
              mem_takeWhile_pred s w
                (by rw [hpre]; exact List.mem_cons_self w pw)
            have hwh : ¬ w = '#' := by
              intro he
              subst he
              exact absurd hw (by decide)
            rw [hseq, goH1_none_of_head w (pw ++ c :: t) hwh]
            obtain ⟨R, hR⟩ := linesOf_exists_head (w :: (pw ++ c :: t))
            have hprent : ∀ x ∈ (w :: pw),
                (fun x : Char => decide (¬ (x = '\n'))) x = true := by
              intro x hx
              have hxw : wsNoNl x = true :=
                mem_takeWhile_pred s x (by rw [hpre]; exact hx)
              simp only [decide_eq_true_eq]
              intro hxe
              subst hxe
              exact absurd hxw (by decide)
            have hline : (w :: (pw ++ c :: t)).takeWhile
                  (fun x => ¬ (x = '\n'))
                = (w :: pw) ++ c :: (t.takeWhile (fun x => ¬ (x = '\n'))) := by
              show ((w :: pw) ++ (c :: t)).takeWhile (fun x => ¬ (x = '\n'))
                  = (w :: pw) ++ c :: (t.takeWhile (fun x => ¬ (x = '\n')))
              rw [takeWhile_append_all _ _ _ hprent, List.takeWhile_cons,
                if_pos (by simpa using hc)]
            rw [hR, hline]
            have hbl2 : isBlankLine
                ((w :: pw) ++ c :: (t.takeWhile (fun x => ¬ (x = '\n'))))
                = false :=
              isBlankLine_false_of_mem _ c (by simp) hcf
            have hne2 : ∀ t2,
                (w :: pw) ++ c :: (t.takeWhile (fun x => ¬ (x = '\n')))
                  ≠ '#' :: t2 := by
              intro t2 he
              apply hwh
              have h0 : w :: (pw ++ c :: (t.takeWhile (fun x => ¬ (x = '\n'))))
                  = '#' :: t2 := he
              exact (List.cons.injEq _ _ _ _ ▸ h0).1
            rw [specGo_cons_none _ R hbl2 hne2]
            rfl

theorem matchImage_none (c : Char) (r : List Char)
    (h : isFmtChar c = false) : matchImage (c :: r) = none := by
  have hc : ¬ c = '!' := by
    intro he; subst he; exact absurd h (by decide)
  cases r with
  | nil => rfl
  | cons b rr => simp [matchImage, hc]

theorem matchLink_none (c : Char) (r : List Char)
    (h : isFmtChar c = false) : matchLink (c :: r) = none := by
  have hc : ¬ c = '[' := by
    intro he; subst he; exact absurd h (by decide)
  simp [matchLink, hc]

theorem matchBold_none (c : Char) (r : List Char)
    (h : isFmtChar c = false) : matchBold (c :: r) = none := by
  have hs : ¬ c = '*' := by
    intro he; subst he; exact absurd h (by decide)
  have hu : ¬ c = '_' := by
    intro he; subst he; exact absurd h (by decide)
  cases r with
  | nil => rfl
  | cons b rr => simp [matchBold, hs, hu]

theorem matchItalic_none (c : Char) (r : List Char)
    (h : isFmtChar c = false) : matchItalic (c :: r) = none := by
  have hs : ¬ c = '*' := by
    intro he; subst he; exact absurd h (by decide)
  have hu : ¬ c = '_' := by
    intro he; subst he; exact absurd h (by decide)
  simp [matchItalic, hs, hu]

theorem matchStrike_none (c : Char) (r : List Char)
    (h : isFmtChar c = false) : matchStrike (c :: r) = none := by
  have ht : ¬ c = '~' := by
    intro he; subst he; exact absurd h (by decide)
  cases r with
  | nil => rfl
  | cons b rr => simp [matchStrike, ht]

theorem matchCode_none (c : Char) (r : List Char)
    (h : isFmtChar c = false) : matchCode (c :: r) = none := by
  have hb : ¬ c = btick := by
    intro he; subst he; exact absurd h (by decide)
  simp [matchCode, hb]

theorem gRep_no_trigger (m : List Char → Option (List Char × List Char))
    (hm : ∀ c rest, isFmtChar c = false → m (c :: rest) = none) :
    ∀ (s : List Char) (f : Nat), (∀ c ∈ s, isFmtChar c = false) →
      gRep m f s = s := by
  intro s
  induction s with
  | nil => intro f _; cases f <;> rfl
  | cons c rest ih =>
      intro f hall
      cases f with
      | zero => rfl
      | succ f =>
          have h1 := hm c rest (hall c (List.mem_cons_self c rest))
          have h2 := ih f (fun x hx => hall x (List.mem_cons_of_mem c hx))
          simp [gRep, h1, h2]

theorem flattenInlineMarkdown_no_fmt (l : List Char)
    (h : ∀ c ∈ l, isFmtChar c = false) :
    flattenInlineMarkdown l = jsTrim l := by
  simp only [flattenInlineMarkdown, runRep]
  rw [gRep_no_trigger matchImage matchImage_none l l.length h,
    gRep_no_trigger matchLink matchLink_none l l.length h,
    gRep_no_trigger matchBold matchBold_none l l.length h,
    gRep_no_trigger matchItalic matchItalic_none l l.length h,
    gRep_no_trigger matchStrike matchStrike_none l l.length h,
    gRep_no_trigger matchCode matchCode_none l l.length h]

/-- C6 counterexample: the claim's body description — the original
markdown minus the matched heading line and at most one immediately
following blank line — fails on input holding a carriage return.  The
dot of H1_RE stops the heading capture at any JS line terminator while
its optional newline matches only a line feed, so on a CR-bearing
heading line the captured title is truncated at the CR and the rest of
the heading line, including a CRLF terminator, stays in the body: the
program's output differs from the line-level reading of the claim. -/
theorem extractH1_cr_counterexample :
    extractH1 "# Ti\rtle\nBody" = some ("Ti", "\rtle\nBody") ∧
    extractH1 "# Title\r\nBody" = some ("Title", "\r\nBody") ∧
    ¬ (extractH1core ("# Title\r\nBody" : String).data
        = (specExtractLeadingHeading ("# Title\r\nBody" : String).data).map
            (fun p => (flattenInlineMarkdown p.1, p.2))) := by
  refine ⟨by decide, by decide, by decide⟩

/-- C6 amended: on markdown free of the line terminators other than the
line feed (no carriage return, U+2028, U+2029), `extractH1` refines the
line-level `extractLeadingHeading` of the design document.  For every
such character list, the regex-based extraction equals the spec-side
extraction — skip leading blank lines, qualify iff the first non-blank
line starts hash-space-text, return the remaining lines minus one
immediately following blank line — with the heading text flattened to
plain text.  When the heading text contains none of the six formatting
trigger characters, flattening is only a trim, so internal hash
characters are preserved.  The spec's worked examples — deeper heading,
prose first, buried heading, subsequent hash-space lines kept in the
body, leading blank lines consumed, markers flattened to image alt/link
text, and the heading-only body yielding the empty string — all
evaluate as the spec states.  On CR-bearing input the heading capture
stops at the CR and the heading line's remainder stays in the body. -/
theorem extractH1_matches_spec :
    (∀ s : List Char, (∀ c ∈ s, lfOnly c = true) →
        extractH1core s
          = (specExtractLeadingHeading s).map
              (fun p => (flattenInlineMarkdown p.1, p.2)))
    ∧ (∀ l : List Char, (∀ c ∈ l, isFmtChar c = false) →
        flattenInlineMarkdown l = jsTrim l)
    ∧ extractH1 "# Title\n\nBody." = some ("Title", "Body.")
    ∧ extractH1 "## Sub\n\nBody" = none
    ∧ extractH1 "Text.\n\n# Title" = none
    ∧ extractH1 "# First\n\n# Second\n\nBody"
        = some ("First", "# Second\n\nBody")
    ∧ extractH1 "# C# Guide\n\nBody" = some ("C# Guide", "Body")
    ∧ extractH1 "\n  \n# Title\n\nBody" = some ("Title", "Body")
    ∧ extractH1 "# **Bold** [link](url) ![alt](img) `code` _em_ ~~gone~~"
        = some ("Bold link alt code em gone", "")
    ∧ extractH1 "# Just a Title" = some ("Just a Title", "") := by
  refine ⟨?_, flattenInlineMarkdown_no_fmt, by decide, by decide, by decide,
    by decide, by decide, by decide, by decide, by decide⟩
  intro s hlf
  simp only [extractH1core, specExtractLeadingHeading]
  rw [goH1_skip_spec_aux s.length s le_rfl hlf]

theorem extractH1_matches_spec_witness :
    (∀ c ∈ ("# Title\n\nBody." : String).data, lfOnly c = true) ∧
    extractH1core ("# Title\n\nBody." : String).data
      = (specExtractLeadingHeading ("# Title\n\nBody." : String).data).map
          (fun p => (flattenInlineMarkdown p.1, p.2)) ∧
    (∀ c ∈ ("C# Guide" : String).data, isFmtChar c = false) ∧
    flattenInlineMarkdown ("C# Guide" : String).data
      = jsTrim ("C# Guide" : String).data :=
  ⟨by decide,
    extractH1_matches_spec.1 ("# Title\n\nBody." : String).data (by decide),
    by decide,
    extractH1_matches_spec.2.1 ("C# Guide" : String).data (by decide)⟩

end GlobFM
